import Mathlib

/-!
Shallow embedding of `src/main.py` of the synonymy-killer repository, and
proofs checking the natural-language specification against it.

Python dicts are modelled as association lists with unique keys (assignment
overwrites in place, otherwise appends); Python sets as insertion-ordered
duplicate-free lists (iteration order is implementation defined in Python;
we fix insertion order, which the spec calls "a fixed order, documented as
an implementation choice").  Python exceptions (`KeyError` from `cogmap[f]`,
`ValueError` from `max()` on an empty sequence, `ZeroDivisionError`) are
modelled with `Except`.
-/

namespace SynKill

/-- Python dict assignment `d[k] = v`: overwrite the existing binding in
place, otherwise append a new binding at the end. -/
def dictSet {α β : Type} [DecidableEq α] : List (α × β) → α → β → List (α × β)
  | [], k, v => [(k, v)]
  | (k', v') :: rest, k, v =>
      if k' = k then (k, v) :: rest else (k', v') :: dictSet rest k v

/-- Python dict lookup `d.get(k)` / `d[k]` (as an `Option`). -/
def dictGet? {α β : Type} [DecidableEq α] : List (α × β) → α → Option β
  | [], _ => none
  | (k', v) :: rest, k => if k' = k then some v else dictGet? rest k

/-- Python `set.add`: insertion-ordered model of a Python set. -/
def setAdd {α : Type} [DecidableEq α] (s : List α) (x : α) : List α :=
  if x ∈ s then s else s ++ [x]

/-- A row of the CLDF FormTable, restricted to the fields `parse_form_table`
reads: `ID`, `Language_ID`, `Parameter_ID`. -/
structure FormRow where
  fid : String
  lang : String
  meaning : String
deriving DecidableEq, Repr

/-- A row of the CLDF CognateTable, restricted to the fields read:
`Form_ID`, `Cognateset_ID`. -/
structure CogRow where
  formId : String
  cogsetId : String
deriving DecidableEq, Repr

/-- The tuple returned by `parse_form_table`. -/
structure ParsedData where
  languages : List String
  meanings : List String
  forms : List ((String × String) × List String)
  cognate_map : List (String × String)
deriving DecidableEq, Repr

/-- One iteration of the `FormTable` loop of `parse_form_table`. -/
def addFormRow (pd : ParsedData) (row : FormRow) : ParsedData :=
  let key := (row.lang, row.meaning)
  let cur := (dictGet? pd.forms key).getD []
  { pd with
    languages := setAdd pd.languages row.lang
    meanings := setAdd pd.meanings row.meaning
    forms := dictSet pd.forms key (cur ++ [row.fid]) }

/-- One iteration of the `CognateTable` loop of `parse_form_table`:
`cognate_map[form_id] = cogset_id`. -/
def addCogRow (m : List (String × String)) (row : CogRow) : List (String × String) :=
  dictSet m row.formId row.cogsetId

/-- `parse_form_table` (main.py lines 11-38). -/
def parse_form_table (formRows : List FormRow) (cogRows : List CogRow) : ParsedData :=
  let pd := formRows.foldl addFormRow ⟨[], [], [], []⟩
  { pd with cognate_map := cogRows.foldl addCogRow pd.cognate_map }

/-- The Python exceptions `report` can raise: `ValueError` from
`max()` over an empty sequence (line 49), `ZeroDivisionError` from the
synonymy-ratio division (line 50). -/
inductive ReportErr
  | emptyMax
  | divZero
deriving DecidableEq, Repr

/-- The statistics printed by `report`. -/
structure Stats where
  n_langs : Nat
  n_meanings : Nat
  n_forms : Nat
  max_forms : Nat
  ratioQ : ℚ
deriving DecidableEq, Repr

/-- `report` (main.py lines 40-56), with the computations in Python
evaluation order: `n_forms` (line 48), then `max_forms` (line 49, raises
`ValueError` on an empty sequence), then the division (line 50, raises
`ZeroDivisionError` when the divisor is zero). -/
def report (formRows : List FormRow) (cogRows : List CogRow) : Except ReportErr Stats :=
  let pd := parse_form_table formRows cogRows
  let n_langs := pd.languages.length
  let n_meanings := pd.meanings.length
  let sizes := pd.forms.map (fun kv => kv.2.length)
  let n_forms := sizes.sum
  match sizes.max? with
  | none => .error .emptyMax
  | some mx =>
      if n_langs * n_meanings = 0 then .error .divZero
      else .ok ⟨n_langs, n_meanings, n_forms, mx,
        (n_forms : ℚ) / ((n_langs * n_meanings : Nat) : ℚ)⟩

/-- `kill_random` (main.py lines 69-78).  The call
`random.sample(synonym_list, 1)[0]` is modelled by an oracle
`pick : List String → String`; theorems assume `pick l ∈ l` for
non-empty `l`. -/
def kill_random (pick : List String → String) (formRows : List FormRow)
    (cogRows : List CogRow) : List String :=
  let pd := parse_form_table formRows cogRows
  pd.forms.foldl (fun acc kv => setAdd acc (pick kv.2)) []

/-- The two modes of `_kill_minimax_cognates`. -/
inductive Mode
  | min
  | max
deriving DecidableEq, Repr

/-- A value of the Python `cognates` dictionary: a list of class ids right
after line 94, overwritten by a single class id (a string) during the easy
and hard assignment passes. -/
inductive CogVal
  | lst : List String → CogVal
  | cls : String → CogVal
deriving DecidableEq, Repr

/-- Python `==` between a `cognates` entry and a string: a list never
equals a string. -/
def CogVal.eqStr : CogVal → String → Bool
  | .lst _, _ => false
  | .cls a, b => a = b

/-- Line 94: `[cogmap.get(f, "?") for f in forms.get(key, "?")]`.
When `key` is absent, the default is the *string* `"?"`; Python iterates
its characters, producing the single form id `"?"`, which is then looked
up in `cogmap` (with default `"?"`). -/
def candClasses (pd : ParsedData) (m : String) (l : String) : List String :=
  match dictGet? pd.forms (l, m) with
  | some fs => fs.map (fun f => (dictGet? pd.cognate_map f).getD "?")
  | none => [(dictGet? pd.cognate_map "?").getD "?"]

/-- Lines 95-97: tally one language's candidate classes into the running
`collections.Counter` (classes equal to `"?"` are not counted). -/
def tallyClasses (counts : List (String × Nat)) (cs : List String) : List (String × Nat) :=
  cs.foldl
    (fun acc c => if c = "?" then acc else dictSet acc c ((dictGet? acc c).getD 0 + 1))
    counts

/-- The per-meaning `cognate_class_counts` Counter after the loop of
lines 92-97. -/
def classCounts (pd : ParsedData) (m : String) : List (String × Nat) :=
  pd.languages.foldl (fun acc l => tallyClasses acc (candClasses pd m l)) []

/-- `Counter` lookup: missing keys count as `0`. -/
def countOf (counts : List (String × Nat)) (c : String) : Nat :=
  (dictGet? counts c).getD 0

/-- The `cognates` dictionary right after the loop of lines 92-97,
restricted to the current meaning (keys of other meanings are never read
in the current iteration). -/
def initAsgn (pd : ParsedData) (m : String) : List (String × CogVal) :=
  pd.languages.foldl (fun acc l => dictSet acc l (.lst (candClasses pd m l))) []

/-- Line 99: `[l for l in languages if len(cognates[(l, meaning)]) < 2]`. -/
def easy_langs (pd : ParsedData) (m : String) : List String :=
  pd.languages.filter (fun l => (candClasses pd m l).length < 2)

/-- Line 100: `[l for l in languages if l not in easy_langs]`. -/
def hard_langs (pd : ParsedData) (m : String) : List String :=
  pd.languages.filter (fun l => l ∉ easy_langs pd m)

/-- The selector's per-meaning working state: the `cognates` dictionary
(restricted to the current meaning) and the `attested_cognates` set. -/
structure MState where
  asgn : List (String × CogVal)
  attested : List String
deriving DecidableEq, Repr

/-- Lines 103-109, one easy language.  `pop()` on a singleton list yields
its element; the class is then added to `attested_cognates`
unconditionally.  Entries of length at least 2 satisfy neither branch
(the Python `if`/`elif` falls through); easy languages never have them. -/
def easyStep (st : MState) (l : String) : MState :=
  match dictGet? st.asgn l with
  | some (.lst []) => { st with asgn := dictSet st.asgn l (.cls "?") }
  | some (.lst [c]) =>
      { asgn := dictSet st.asgn l (.cls c), attested := setAdd st.attested c }
  | _ => st

/-- Python's string comparison: code-point lexicographic `≤` on the
character lists. -/
def charsLe : List Char → List Char → Bool
  | [], _ => true
  | _ :: _, [] => false
  | a :: as, b :: bs =>
      if a.toNat < b.toNat then true
      else if b.toNat < a.toNat then false
      else charsLe as bs

/-- Python's `<=` on strings: code-point lexicographic comparison of the
underlying character lists. -/
def strLe (s t : String) : Bool := charsLe s.data t.data

/-- The total order used by Python's tuple comparison on
`(count, class id)` pairs: count first, then string order on ids. -/
def lexLe (a b : Nat × String) : Prop :=
  a.1 < b.1 ∨ (a.1 = b.1 ∧ strLe a.2 b.2 = true)

instance : DecidableRel lexLe := fun a b =>
  inferInstanceAs (Decidable (a.1 < b.1 ∨ (a.1 = b.1 ∧ strLe a.2 b.2 = true)))

/-- The comparison used by `options.sort(reverse = mode == "min")`:
ascending tuple order for `max`, descending for `min`. -/
def optRel (mode : Mode) (a b : Nat × String) : Prop :=
  match mode with
  | .max => lexLe a b
  | .min => lexLe b a

instance : DecidableRel (optRel mode) := fun a b =>
  match mode with
  | .max => inferInstanceAs (Decidable (lexLe a b))
  | .min => inferInstanceAs (Decidable (lexLe b a))

/-- Line 116: `options.sort(reverse = mode == "min")`. -/
def sortOptions (mode : Mode) (opts : List (Nat × String)) : List (Nat × String) :=
  List.insertionSort (fun a b => optRel mode a b) opts

/-- The preference test of line 121: in `min` mode a class already
attested, in `max` mode a class not yet attested. -/
def prefHolds (mode : Mode) (attested : List String) (c : String) : Bool :=
  match mode with
  | .min => decide (c ∈ attested)
  | .max => decide (c ∉ attested)

/-- The `for`/`break` scan of lines 120-123. -/
def scanPick (mode : Mode) (attested : List String) : List (Nat × String) → Option String
  | [] => none
  | (_, c) :: rest =>
      if prefHolds mode attested c then some c else scanPick mode attested rest

/-- Lines 120-126: the scan, with the `for`/`else` fallback
`options[0][1]`.  (The empty-list fallback case is unreachable: hard
languages have at least two candidates; Python would raise `IndexError`.) -/
def hardChoice (mode : Mode) (attested : List String) (sorted : List (Nat × String)) : String :=
  match scanPick mode attested sorted with
  | some c => c
  | none =>
      match sorted with
      | [] => "?"
      | o :: _ => o.2

/-- Lines 111-127, one hard language. -/
def hardStep (counts : List (String × Nat)) (mode : Mode) (st : MState) (l : String) : MState :=
  let cs := match dictGet? st.asgn l with
    | some (.lst cs) => cs
    | _ => []
  let opts := cs.map (fun c => (countOf counts c, c))
  let sorted := sortOptions mode opts
  let c := hardChoice mode st.attested sorted
  { asgn := dictSet st.asgn l (.cls c), attested := setAdd st.attested c }

/-- The Python `KeyError` raised at line 139 by `cogmap[f]` when form `f`
has no cognate assignment. -/
inductive KillErr
  | keyError (f : String)
deriving DecidableEq, Repr

/-- Lines 138-141: scan the candidate forms in order, comparing
`cogmap[f]` (which raises `KeyError` when absent) with the assigned
value, and keep the first match. -/
def findSurvivor (cogmap : List (String × String)) (v : CogVal) :
    List String → Except KillErr (Option String)
  | [] => .ok none
  | f :: rest =>
      match dictGet? cogmap f with
      | none => .error (.keyError f)
      | some c => if v.eqStr c then .ok (some f) else findSurvivor cogmap v rest

/-- The state after the easy and hard assignment passes for meaning `m`
(lines 92-127). -/
def mState2 (pd : ParsedData) (mode : Mode) (m : String) : MState :=
  let counts := classCounts pd m
  let st0 : MState := ⟨initAsgn pd m, []⟩
  let st1 := (easy_langs pd m).foldl easyStep st0
  (hard_langs pd m).foldl (hardStep counts mode) st1

/-- The intermediate state right after the easy-assignment pass
(lines 103-109), before the hard languages are processed. -/
def mState1 (pd : ParsedData) (m : String) : MState :=
  (easy_langs pd m).foldl easyStep ⟨initAsgn pd m, []⟩

/-- The survivor chosen for language `l` at meaning `m` given the
assignment dictionary: `none` when the key has no forms (line 131-132)
or, in the error-free reading, when the matching scan finds nothing. -/
def chosenForm (pick : List String → String) (pd : ParsedData) (m : String)
    (asgn : List (String × CogVal)) (l : String) : Option String :=
  match dictGet? pd.forms (l, m) with
  | none => none
  | some fs =>
      let v := (dictGet? asgn l).getD (.cls "?")
      if v.eqStr "?" then some (pick fs)
      else
        match findSurvivor pd.cognate_map v fs with
        | .ok r => r
        | .error _ => none

/-- Lines 129-141, one language of the form-resolution loop. -/
def resolveStep (pick : List String → String) (pd : ParsedData) (m : String)
    (asgn : List (String × CogVal)) (acc : Except KillErr (List String))
    (l : String) : Except KillErr (List String) :=
  match acc with
  | .error e => .error e
  | .ok keep =>
      match dictGet? pd.forms (l, m) with
      | none => .ok keep
      | some fs =>
          let v := (dictGet? asgn l).getD (.cls "?")
          if v.eqStr "?" then .ok (setAdd keep (pick fs))
          else
            match findSurvivor pd.cognate_map v fs with
            | .error e => .error e
            | .ok none => .ok keep
            | .ok (some f) => .ok (setAdd keep f)

/-- One iteration of the `for meaning in meanings` loop of
`_kill_minimax_cognates` (lines 90-141). -/
def processMeaning (pick : List String → String) (mode : Mode) (pd : ParsedData)
    (keep : List String) (m : String) : Except KillErr (List String) :=
  pd.languages.foldl (resolveStep pick pd m (mState2 pd mode m).asgn) (.ok keep)

/-- One meaning in the outer loop of `_kill_minimax_cognates`: a raised
exception aborts the whole call, otherwise the meaning is processed. -/
def meaningStep (pick : List String → String) (mode : Mode) (pd : ParsedData)
    (acc : Except KillErr (List String)) (m : String) : Except KillErr (List String) :=
  match acc with
  | .error e => .error e
  | .ok keep => processMeaning pick mode pd keep m

/-- `_kill_minimax_cognates` (main.py lines 86-143). -/
def kill_minimax_cognates (pick : List String → String) (formRows : List FormRow)
    (cogRows : List CogRow) (mode : Mode) : Except KillErr (List String) :=
  let pd := parse_form_table formRows cogRows
  pd.meanings.foldl (meaningStep pick mode pd) (.ok [])

/-- The invariant maintained by both assignment passes: any entry of the
`cognates` dictionary for a genuine language is either still its
candidate-class list, or an assigned class that is `"?"` or one of the
language's candidate classes. -/
def asgnOk (pd : ParsedData) (m : String) (st : MState) : Prop :=
  ∀ l ∈ pd.languages, ∀ v, dictGet? st.asgn l = some v →
    (v = .lst (candClasses pd m l) ∨
      ∃ c, v = .cls c ∧ (c = "?" ∨ c ∈ candClasses pd m l))

/-- The resolution step cannot raise for language `l`. -/
def stepErrFree (pd : ParsedData) (m : String) (asgn : List (String × CogVal))
    (l : String) : Prop :=
  ∀ fs, dictGet? pd.forms (l, m) = some fs →
    ((dictGet? asgn l).getD (.cls "?")).eqStr "?" = true ∨
    ∀ e, findSurvivor pd.cognate_map ((dictGet? asgn l).getD (.cls "?")) fs ≠ .error e

/-- The hard-assignment algorithm as the specification words it: build the
(global class count, class id) pairs, sort by count — descending for
minimize, ascending for maximize, ties resolved by the pair order — then
pick the first class satisfying the mode's preference, and fall back to
the first entry of the sorted list. -/
def specHardAssign (mode : Mode) (counts : List (String × Nat)) (attested : List String)
    (cs : List String) : String :=
  let sorted := List.mergeSort (cs.map fun c => (countOf counts c, c))
    (fun a b => optRel mode a b)
  match sorted.find? (fun p => prefHolds mode attested p.2) with
  | some p => p.2
  | none => (sorted.headD (0, "?")).2

/-- The distinct real cognate classes attested among a list of surviving
forms (survivors with no cognate assignment contribute nothing). -/
def survivorClasses (cogmap : List (String × String)) (survivors : List String) :
    List String :=
  (survivors.filterMap (fun f => dictGet? cogmap f)).dedup

/-- The class assigned to language `l` for meaning `m` after both
assignment passes. -/
def assignedClass (pd : ParsedData) (mode : Mode) (m l : String) : String :=
  match dictGet? (mState2 pd mode m).asgn l with
  | some (.cls c) => c
  | _ => "?"

/-- A deterministic instance of the random oracle: the first element. -/
def pickHead (l : List String) : String := l.headD ""

/-- A deterministic instance of the random oracle: the last element. -/
def pickLast (l : List String) : String := l.getLastD ""

instance {ε α : Type} [DecidableEq ε] [DecidableEq α] : DecidableEq (Except ε α) := fun x y =>
  match x, y with
  | .error a, .error b =>
      if h : a = b then isTrue (by rw [h])
      else isFalse (by intro hh; injection hh with hh; exact h hh)
  | .error a, .ok b => isFalse (by intro hh; exact Except.noConfusion hh)
  | .ok a, .error b => isFalse (by intro hh; exact Except.noConfusion hh)
  | .ok a, .ok b =>
      if h : a = b then isTrue (by rw [h])
      else isFalse (by intro hh; injection hh with hh; exact h hh)

/-- `kill_minimum_cognates` (main.py lines 80-81). -/
def kill_minimum_cognates (pick : List String → String) (formRows : List FormRow)
    (cogRows : List CogRow) : Except KillErr (List String) :=
  kill_minimax_cognates pick formRows cogRows .min

/-- `kill_maximum_cognates` (main.py lines 83-84). -/
def kill_maximum_cognates (pick : List String → String) (formRows : List FormRow)
    (cogRows : List CogRow) : Except KillErr (List String) :=
  kill_minimax_cognates pick formRows cogRows .max

/-! ### Lemmas about the dictionary and set primitives -/

theorem dictGet?_dictSet_self {α β : Type} [DecidableEq α] (m : List (α × β)) (k : α) (v : β) :
    dictGet? (dictSet m k v) k = some v := by
  induction m with
  | nil => simp [dictSet, dictGet?]
  | cons kv rest ih =>
      obtain ⟨k', v'⟩ := kv
      by_cases h : k' = k
      · simp [dictSet, dictGet?, h]
      · simp [dictSet, dictGet?, h, ih]

theorem dictGet?_dictSet_ne {α β : Type} [DecidableEq α] (m : List (α × β)) {k x : α} (v : β)
    (h : x ≠ k) : dictGet? (dictSet m k v) x = dictGet? m x := by
  have hkx : k ≠ x := Ne.symm h
  induction m with
  | nil => simp [dictSet, dictGet?, hkx]
  | cons kv rest ih =>
      obtain ⟨k', v'⟩ := kv
      by_cases hk : k' = k
      · subst hk
        simp [dictSet, dictGet?, hkx]
      · simp [dictSet, dictGet?, hk, ih]

theorem mem_setAdd {α : Type} [DecidableEq α] {s : List α} {x y : α} :
    x ∈ setAdd s y ↔ x ∈ s ∨ x = y := by
  unfold setAdd
  by_cases h : y ∈ s
  · simp only [if_pos h]
    constructor
    · exact Or.inl
    · rintro (hx | rfl) <;> [exact hx; exact h]
  · simp [if_neg h]

theorem subset_setAdd {α : Type} [DecidableEq α] (s : List α) (y : α) :
    s ⊆ setAdd s y := by
  intro x hx; exact mem_setAdd.mpr (Or.inl hx)

theorem mem_setAdd_self {α : Type} [DecidableEq α] (s : List α) (y : α) :
    y ∈ setAdd s y := mem_setAdd.mpr (Or.inr rfl)

theorem nodup_setAdd {α : Type} [DecidableEq α] {s : List α} (h : s.Nodup) (y : α) :
    (setAdd s y).Nodup := by
  unfold setAdd
  by_cases hy : y ∈ s
  · simpa [hy]
  · simp [hy, List.nodup_append, h]

theorem setAdd_ne_nil {α : Type} [DecidableEq α] (s : List α) (y : α) :
    setAdd s y ≠ [] := by
  unfold setAdd
  by_cases hy : y ∈ s
  · simp only [if_pos hy]
    rintro rfl; exact absurd hy (List.not_mem_nil y)
  · simp [hy]

/-- A general description of a `foldl` of `dictSet` writes with values given
by a function of the key. -/
theorem dictGet?_foldl_dictSet {α β : Type} [DecidableEq α] (g : α → β)
    (L : List α) (acc : List (α × β)) (x : α) :
    dictGet? (L.foldl (fun acc l => dictSet acc l (g l)) acc) x =
      if x ∈ L then some (g x) else dictGet? acc x := by
  induction L generalizing acc with
  | nil => simp
  | cons l rest ih =>
      simp only [List.foldl_cons, ih]
      by_cases hmem : x ∈ rest
      · simp [hmem, List.mem_cons]
      · by_cases hx : x = l
        · subst hx
          simp [hmem, dictGet?_dictSet_self]
        · simp [hmem, hx, dictGet?_dictSet_ne _ _ hx]

/-! ### Invariants of `parse_form_table` -/

/-- Keys present in the `forms` dictionary point to non-empty lists,
and their language and meaning have been recorded. -/
theorem parse_invariant (formRows : List FormRow) (cogRows : List CogRow) :
    ∀ l m fs, dictGet? (parse_form_table formRows cogRows).forms (l, m) = some fs →
      fs ≠ [] ∧ l ∈ (parse_form_table formRows cogRows).languages ∧
        m ∈ (parse_form_table formRows cogRows).meanings := by
  show ∀ l m fs,
    dictGet? (formRows.foldl addFormRow ⟨[], [], [], []⟩).forms (l, m) = some fs →
      fs ≠ [] ∧ l ∈ (formRows.foldl addFormRow ⟨[], [], [], []⟩).languages ∧
        m ∈ (formRows.foldl addFormRow ⟨[], [], [], []⟩).meanings
  suffices h : ∀ (rows : List FormRow) (pd : ParsedData),
      (∀ l m fs, dictGet? pd.forms (l, m) = some fs →
        fs ≠ [] ∧ l ∈ pd.languages ∧ m ∈ pd.meanings) →
      (∀ l m fs, dictGet? (rows.foldl addFormRow pd).forms (l, m) = some fs →
        fs ≠ [] ∧ l ∈ (rows.foldl addFormRow pd).languages ∧
          m ∈ (rows.foldl addFormRow pd).meanings) by
    exact h formRows ⟨[], [], [], []⟩ (by intro l m fs hfs; simp [dictGet?] at hfs)
  intro rows
  induction rows with
  | nil => intro pd hpd; simpa using hpd
  | cons r rest ih =>
      intro pd hpd
      simp only [List.foldl_cons]
      apply ih
      intro l m fs hfs
      simp only [addFormRow] at hfs ⊢
      by_cases hkey : (l, m) = (r.lang, r.meaning)
      · obtain ⟨h1, h2⟩ := Prod.ext_iff.mp hkey
        dsimp at h1 h2
        subst h1; subst h2
        rw [dictGet?_dictSet_self] at hfs
        injection hfs with hfs
        refine ⟨?_, mem_setAdd_self _ _, mem_setAdd_self _ _⟩
        rw [← hfs]
        simp
      · rw [dictGet?_dictSet_ne _ _ hkey] at hfs
        obtain ⟨h1, h2, h3⟩ := hpd l m fs hfs
        exact ⟨h1, subset_setAdd _ _ h2, subset_setAdd _ _ h3⟩

/-- The language and meaning lists built by `parse_form_table` have no
duplicates. -/
theorem parse_nodup (formRows : List FormRow) (cogRows : List CogRow) :
    (parse_form_table formRows cogRows).languages.Nodup ∧
      (parse_form_table formRows cogRows).meanings.Nodup := by
  show (formRows.foldl addFormRow ⟨[], [], [], []⟩).languages.Nodup ∧
    (formRows.foldl addFormRow ⟨[], [], [], []⟩).meanings.Nodup
  suffices h : ∀ (rows : List FormRow) (pd : ParsedData),
      pd.languages.Nodup → pd.meanings.Nodup →
      (rows.foldl addFormRow pd).languages.Nodup ∧
        (rows.foldl addFormRow pd).meanings.Nodup by
    exact h formRows ⟨[], [], [], []⟩ List.nodup_nil List.nodup_nil
  intro rows
  induction rows with
  | nil => intro pd h1 h2; exact ⟨h1, h2⟩
  | cons r rest ih =>
      intro pd h1 h2
      exact ih _ (nodup_setAdd h1 _) (nodup_setAdd h2 _)

/-- `candClasses` is never empty. -/
theorem candClasses_ne_nil (formRows : List FormRow) (cogRows : List CogRow)
    (m l : String) : candClasses (parse_form_table formRows cogRows) m l ≠ [] := by
  unfold candClasses
  cases hf : dictGet? (parse_form_table formRows cogRows).forms (l, m) with
  | none => simp
  | some fs =>
      obtain ⟨hne, -, -⟩ := parse_invariant formRows cogRows l m fs hf
      simpa using hne

/-! ### Dictionary membership and key lemmas -/

theorem mem_of_dictGet?_eq_some {α β : Type} [DecidableEq α] {m : List (α × β)} {k : α} {v : β}
    (h : dictGet? m k = some v) : (k, v) ∈ m := by
  induction m with
  | nil => simp [dictGet?] at h
  | cons kv rest ih =>
      obtain ⟨k', v'⟩ := kv
      by_cases hk : k' = k
      · subst hk
        simp only [dictGet?, if_pos rfl] at h
        injection h with h
        subst h
        exact List.mem_cons_self _ _
      · simp only [dictGet?, if_neg hk] at h
        exact List.mem_cons_of_mem _ (ih h)

theorem keys_dictSet {α β : Type} [DecidableEq α] (m : List (α × β)) (k : α) (v : β) :
    (dictSet m k v).map Prod.fst = setAdd (m.map Prod.fst) k := by
  induction m with
  | nil => simp [dictSet, setAdd]
  | cons kv rest ih =>
      obtain ⟨k', v'⟩ := kv
      by_cases hk : k' = k
      · subst hk
        simp [dictSet, setAdd]
      · simp only [dictSet, if_neg hk, List.map_cons, ih, setAdd, List.mem_cons]
        by_cases hmem : k ∈ rest.map Prod.fst
        · simp [hmem, Ne.symm hk]
        · simp [hmem, Ne.symm hk, hk]

theorem dictGet?_eq_some_of_mem {α β : Type} [DecidableEq α] {m : List (α × β)} {k : α} {v : β}
    (hnd : (m.map Prod.fst).Nodup) (h : (k, v) ∈ m) : dictGet? m k = some v := by
  induction m with
  | nil => simp at h
  | cons kv rest ih =>
      obtain ⟨k', v'⟩ := kv
      simp only [List.map_cons, List.nodup_cons] at hnd
      rcases List.mem_cons.mp h with heq | hmem
      · injection heq with h1 h2
        subst h1
        simp [dictGet?, h2]
      · have hk : k' ≠ k := by
          rintro rfl
          exact hnd.1 (List.mem_map_of_mem Prod.fst hmem)
        simp only [dictGet?, if_neg hk]
        exact ih hnd.2 hmem

/-- Keys of the `forms` dictionary built by `parse_form_table` have no
duplicates (it is a Python dict). -/
theorem parse_forms_nodupkeys (formRows : List FormRow) (cogRows : List CogRow) :
    ((parse_form_table formRows cogRows).forms.map Prod.fst).Nodup := by
  show ((formRows.foldl addFormRow ⟨[], [], [], []⟩).forms.map Prod.fst).Nodup
  suffices h : ∀ (rows : List FormRow) (pd : ParsedData),
      (pd.forms.map Prod.fst).Nodup →
      ((rows.foldl addFormRow pd).forms.map Prod.fst).Nodup by
    exact h formRows ⟨[], [], [], []⟩ (by simp)
  intro rows
  induction rows with
  | nil => intro pd h; exact h
  | cons r rest ih =>
      intro pd h
      refine ih _ ?_
      simp only [addFormRow, keys_dictSet]
      exact nodup_setAdd h _

/-! ### The class counter -/

theorem countOf_dictSet_self (counts : List (String × Nat)) (c : String) (n : Nat) :
    countOf (dictSet counts c n) c = n := by
  unfold countOf
  rw [dictGet?_dictSet_self]
  rfl

theorem countOf_dictSet_ne (counts : List (String × Nat)) {c x : String} (n : Nat)
    (h : x ≠ c) : countOf (dictSet counts c n) x = countOf counts x := by
  unfold countOf
  rw [dictGet?_dictSet_ne _ _ h]

theorem countOf_tallyClasses (counts : List (String × Nat)) (cs : List String) (x : String) :
    countOf (tallyClasses counts cs) x =
      countOf counts x + (if x = "?" then 0 else cs.count x) := by
  induction cs generalizing counts with
  | nil => simp [tallyClasses]
  | cons c cs ih =>
      unfold tallyClasses
      simp only [List.foldl_cons]
      rw [show (cs.foldl
            (fun acc c => if c = "?" then acc else dictSet acc c ((dictGet? acc c).getD 0 + 1))
            (if c = "?" then counts
             else dictSet counts c ((dictGet? counts c).getD 0 + 1))) =
          tallyClasses
            (if c = "?" then counts
             else dictSet counts c ((dictGet? counts c).getD 0 + 1)) cs from rfl]
      rw [ih]
      by_cases hc : c = "?"
      · subst hc
        by_cases hx : x = "?"
        · simp [hx]
        · simp [hx, List.count_cons]
      · by_cases hx : x = c
        · subst hx
          rw [if_neg hc]
          have : countOf (dictSet counts x ((dictGet? counts x).getD 0 + 1)) x =
              countOf counts x + 1 := countOf_dictSet_self ..
          rw [this]
          simp [hc, List.count_cons]
          omega
        · rw [if_neg hc]
          rw [countOf_dictSet_ne _ _ hx]
          by_cases hxq : x = "?"
          · simp [hxq]
          · simp [hxq, List.count_cons, hx]

/-- Closed form of the per-meaning Counter: `"?"` is never counted, any
other class is counted once per occurrence in any language's candidate
class list. -/
theorem countOf_classCounts (pd : ParsedData) (m : String) (x : String) :
    countOf (classCounts pd m) x =
      if x = "?" then 0
      else ((pd.languages.map (fun l => (candClasses pd m l).count x)).sum) := by
  unfold classCounts
  suffices h : ∀ (L : List String) (acc : List (String × Nat)),
      countOf (L.foldl (fun acc l => tallyClasses acc (candClasses pd m l)) acc) x =
        countOf acc x +
          (if x = "?" then 0 else (L.map (fun l => (candClasses pd m l).count x)).sum) by
    rw [h pd.languages []]
    simp [countOf, dictGet?]
  intro L
  induction L with
  | nil => intro acc; simp
  | cons l rest ih =>
      intro acc
      simp only [List.foldl_cons, ih, countOf_tallyClasses, List.map_cons, List.sum_cons]
      by_cases hx : x = "?"
      · simp [hx]
      · simp [hx]
        omega

theorem countOf_q_eq_zero (pd : ParsedData) (m : String) :
    countOf (classCounts pd m) "?" = 0 := by
  rw [countOf_classCounts]
  simp

/-- Any real class occurring among some language's candidates has a
positive global count. -/
theorem countOf_pos (pd : ParsedData) (m : String) {l c : String}
    (hl : l ∈ pd.languages) (hc : c ∈ candClasses pd m l) (hq : c ≠ "?") :
    1 ≤ countOf (classCounts pd m) c := by
  rw [countOf_classCounts, if_neg hq]
  have h1 : 1 ≤ (candClasses pd m l).count c := List.count_pos_iff.mpr hc
  have h2 : (candClasses pd m l).count c ∈
      pd.languages.map (fun l => (candClasses pd m l).count c) :=
    List.mem_map_of_mem _ hl
  exact le_trans h1 (List.single_le_sum (by intro x hx; exact Nat.zero_le x) _ h2)

/-! ### The assignment passes -/

theorem dictGet?_initAsgn (pd : ParsedData) (m l : String) :
    dictGet? (initAsgn pd m) l =
      if l ∈ pd.languages then some (.lst (candClasses pd m l)) else none := by
  unfold initAsgn
  rw [dictGet?_foldl_dictSet (fun l => CogVal.lst (candClasses pd m l)) pd.languages [] l]
  simp [dictGet?]

theorem mem_easy_langs {pd : ParsedData} {m l : String} :
    l ∈ easy_langs pd m ↔ l ∈ pd.languages ∧ (candClasses pd m l).length < 2 := by
  unfold easy_langs
  simp

theorem mem_hard_langs {pd : ParsedData} {m l : String} :
    l ∈ hard_langs pd m ↔ l ∈ pd.languages ∧ l ∉ easy_langs pd m := by
  unfold hard_langs
  simp

theorem mem_easy_or_hard (pd : ParsedData) (m : String) {l : String}
    (hl : l ∈ pd.languages) : l ∈ easy_langs pd m ∨ l ∈ hard_langs pd m := by
  by_cases h : l ∈ easy_langs pd m
  · exact Or.inl h
  · exact Or.inr (mem_hard_langs.mpr ⟨hl, h⟩)

theorem easy_langs_nodup (formRows : List FormRow) (cogRows : List CogRow) (m : String) :
    (easy_langs (parse_form_table formRows cogRows) m).Nodup :=
  (parse_nodup formRows cogRows).1.filter _

theorem hard_langs_nodup (formRows : List FormRow) (cogRows : List CogRow) (m : String) :
    (hard_langs (parse_form_table formRows cogRows) m).Nodup :=
  (parse_nodup formRows cogRows).1.filter _

theorem easy_candClasses_singleton (formRows : List FormRow) (cogRows : List CogRow)
    {m l : String} (h : l ∈ easy_langs (parse_form_table formRows cogRows) m) :
    candClasses (parse_form_table formRows cogRows) m l =
      [(candClasses (parse_form_table formRows cogRows) m l).headD "?"] := by
  obtain ⟨-, hlen⟩ := mem_easy_langs.mp h
  have hne := candClasses_ne_nil formRows cogRows m l
  have hlen1 : (candClasses (parse_form_table formRows cogRows) m l).length = 1 := by
    have hpos : 0 < (candClasses (parse_form_table formRows cogRows) m l).length :=
      List.length_pos.mpr hne
    omega
  obtain ⟨a, ha⟩ := List.length_eq_one.mp hlen1
  rw [ha]
  simp

/-- Full description of the easy-assignment fold (lines 103-109) on a
duplicate-free list of languages whose entries are singleton class
lists. -/
theorem easy_foldl_spec (cl : String → String) :
    ∀ (L : List String) (st : MState), L.Nodup →
      (∀ l ∈ L, dictGet? st.asgn l = some (.lst [cl l])) →
      (∀ l ∈ L, dictGet? (L.foldl easyStep st).asgn l = some (.cls (cl l))) ∧
      (∀ x, x ∉ L → dictGet? (L.foldl easyStep st).asgn x = dictGet? st.asgn x) ∧
      (∀ c, c ∈ (L.foldl easyStep st).attested ↔
        c ∈ st.attested ∨ ∃ l ∈ L, cl l = c) := by
  intro L
  induction L with
  | nil => intro st _ _; simp
  | cons l rest ih =>
      intro st hnd hentry
      have hl : dictGet? st.asgn l = some (.lst [cl l]) := hentry l (List.mem_cons_self _ _)
      have hstep : easyStep st l =
          ⟨dictSet st.asgn l (.cls (cl l)), setAdd st.attested (cl l)⟩ := by
        unfold easyStep
        rw [hl]
      simp only [List.foldl_cons, hstep]
      have hndr : rest.Nodup := (List.nodup_cons.mp hnd).2
      have hlr : l ∉ rest := (List.nodup_cons.mp hnd).1
      have hentry' : ∀ l' ∈ rest,
          dictGet? (dictSet st.asgn l (.cls (cl l))) l' = some (.lst [cl l']) := by
        intro l' hl'
        have hne : l' ≠ l := by rintro rfl; exact hlr hl'
        rw [dictGet?_dictSet_ne _ _ hne]
        exact hentry l' (List.mem_cons_of_mem _ hl')
      obtain ⟨ih1, ih2, ih3⟩ :=
        ih ⟨dictSet st.asgn l (.cls (cl l)), setAdd st.attested (cl l)⟩ hndr hentry'
      refine ⟨?_, ?_, ?_⟩
      · intro l0 hl0
        rcases List.mem_cons.mp hl0 with rfl | hl0r
        · rw [ih2 l0 hlr]
          exact dictGet?_dictSet_self ..
        · exact ih1 l0 hl0r
      · intro x hx
        have hx1 : x ≠ l := by rintro rfl; exact hx (List.mem_cons_self _ _)
        have hx2 : x ∉ rest := fun hh => hx (List.mem_cons_of_mem _ hh)
        rw [ih2 x hx2]
        exact dictGet?_dictSet_ne _ _ hx1
      · intro c
        rw [ih3 c]
        simp only [mem_setAdd, List.mem_cons]
        constructor
        · rintro ((hc | rfl) | ⟨l', hl', rfl⟩)
          · exact Or.inl hc
          · exact Or.inr ⟨l, Or.inl rfl, rfl⟩
          · exact Or.inr ⟨l', Or.inr hl', rfl⟩
        · rintro (hc | ⟨l', (rfl | hl'), rfl⟩)
          · exact Or.inl (Or.inl hc)
          · exact Or.inl (Or.inr rfl)
          · exact Or.inr ⟨l', hl', rfl⟩

theorem scanPick_mem {mode : Mode} {att : List String} :
    ∀ {L : List (Nat × String)} {c : String},
      scanPick mode att L = some c → c ∈ L.map Prod.snd := by
  intro L
  induction L with
  | nil => intro c h; simp [scanPick] at h
  | cons o rest ih =>
      intro c h
      obtain ⟨n, c'⟩ := o
      unfold scanPick at h
      by_cases hp : prefHolds mode att c'
      · rw [if_pos hp] at h
        injection h with h
        subst h
        simp
      · rw [if_neg hp] at h
        simp only [List.map_cons, List.mem_cons]
        exact Or.inr (ih h)

theorem hardChoice_mem (mode : Mode) (att : List String) (sorted : List (Nat × String)) :
    hardChoice mode att sorted = "?" ∨
      hardChoice mode att sorted ∈ sorted.map Prod.snd := by
  unfold hardChoice
  cases hs : scanPick mode att sorted with
  | some c => exact Or.inr (scanPick_mem hs)
  | none =>
      cases sorted with
      | nil => exact Or.inl rfl
      | cons o rest => exact Or.inr (by simp)

theorem sortOptions_perm (mode : Mode) (opts : List (Nat × String)) :
    (sortOptions mode opts).Perm opts :=
  List.perm_insertionSort _ opts

theorem mem_snd_sortOptions {mode : Mode} {opts : List (Nat × String)} {x : String}
    (h : x ∈ (sortOptions mode opts).map Prod.snd) : x ∈ opts.map Prod.snd :=
  ((sortOptions_perm mode opts).map Prod.snd).mem_iff.mp h

/-- Full description of the hard-assignment fold's effect on the
assignment dictionary: every processed language ends with a single
assigned class, other keys are untouched. -/
theorem hard_foldl_spec (counts : List (String × Nat)) (mode : Mode) :
    ∀ (L : List String) (st : MState), L.Nodup →
      (∀ l ∈ L, ∃ c, dictGet? (L.foldl (hardStep counts mode) st).asgn l = some (.cls c)) ∧
      (∀ x, x ∉ L → dictGet? (L.foldl (hardStep counts mode) st).asgn x =
        dictGet? st.asgn x) := by
  intro L
  induction L with
  | nil => intro st _; simp
  | cons l rest ih =>
      intro st hnd
      have hndr : rest.Nodup := (List.nodup_cons.mp hnd).2
      have hlr : l ∉ rest := (List.nodup_cons.mp hnd).1
      simp only [List.foldl_cons]
      obtain ⟨ih1, ih2⟩ := ih (hardStep counts mode st l) hndr
      refine ⟨?_, ?_⟩
      · intro l0 hl0
        rcases List.mem_cons.mp hl0 with rfl | hl0r
        · rw [ih2 l0 hlr]
          exact ⟨_, dictGet?_dictSet_self ..⟩
        · exact ih1 l0 hl0r
      · intro x hx
        have hx1 : x ≠ l := by rintro rfl; exact hx (List.mem_cons_self _ _)
        have hx2 : x ∉ rest := fun hh => hx (List.mem_cons_of_mem _ hh)
        rw [ih2 x hx2]
        exact dictGet?_dictSet_ne _ _ hx1

theorem foldl_invariant {σ α : Type} (P : σ → Prop) (f : σ → α → σ)
    (hstep : ∀ s a, P s → P (f s a)) :
    ∀ (L : List α) (s : σ), P s → P (L.foldl f s) := by
  intro L
  induction L with
  | nil => intro s h; exact h
  | cons a rest ih => intro s h; exact ih _ (hstep s a h)

theorem asgnOk_easyStep {pd : ParsedData} {m : String} (st : MState) (l : String)
    (h : asgnOk pd m st) : asgnOk pd m (easyStep st l) := by
  intro l' hl' v hv
  unfold easyStep at hv
  cases hget : dictGet? st.asgn l with
  | none =>
      rw [hget] at hv
      exact h l' hl' v hv
  | some w =>
      rw [hget] at hv
      match w with
      | .lst [] =>
          simp only at hv
          by_cases hne : l' = l
          · subst hne
            rw [dictGet?_dictSet_self] at hv
            injection hv with hv
            exact Or.inr ⟨"?", hv.symm, Or.inl rfl⟩
          · rw [dictGet?_dictSet_ne _ _ hne] at hv
            exact h l' hl' v hv
      | .lst [c] =>
          simp only at hv
          by_cases hne : l' = l
          · subst hne
            rw [dictGet?_dictSet_self] at hv
            injection hv with hv
            rcases h l' hl' _ hget with heq | ⟨c', heq, _⟩
            · have : c ∈ candClasses pd m l' := by
                injection heq with heq
                rw [← heq]
                simp
              exact Or.inr ⟨c, hv.symm, Or.inr this⟩
            · exact absurd heq (by simp)
          · rw [dictGet?_dictSet_ne _ _ hne] at hv
            exact h l' hl' v hv
      | .lst (c₁ :: c₂ :: t) => exact h l' hl' v hv
      | .cls c => exact h l' hl' v hv

theorem hardChoice_opts_mem (mode : Mode) (att : List String)
    (counts : List (String × Nat)) (cs : List String) :
    hardChoice mode att (sortOptions mode (cs.map fun c => (countOf counts c, c))) = "?" ∨
    hardChoice mode att (sortOptions mode (cs.map fun c => (countOf counts c, c))) ∈ cs := by
  rcases hardChoice_mem mode att (sortOptions mode (cs.map fun c => (countOf counts c, c)))
    with hq | hmem
  · exact Or.inl hq
  · right
    have h2 := mem_snd_sortOptions hmem
    simpa using h2

theorem asgnOk_hardStep {pd : ParsedData} {m : String} (counts : List (String × Nat))
    (mode : Mode) (st : MState) (l : String)
    (h : asgnOk pd m st) : asgnOk pd m (hardStep counts mode st l) := by
  intro l' hl' v hv
  unfold hardStep at hv
  dsimp only at hv
  by_cases hne : l' = l
  · subst hne
    rw [dictGet?_dictSet_self] at hv
    injection hv with hv
    cases hget : dictGet? st.asgn l' with
    | none =>
        rw [hget] at hv
        exact Or.inr ⟨"?", hv.symm, Or.inl rfl⟩
    | some w =>
        rw [hget] at hv
        cases w with
        | cls c => exact Or.inr ⟨"?", hv.symm, Or.inl rfl⟩
        | lst cs =>
            have hcc : cs = candClasses pd m l' := by
              rcases h l' hl' _ hget with heq | ⟨c', heq, _⟩
              · injection heq with heq
              · exact absurd heq (by simp)
            rw [hcc] at hv
            rcases hardChoice_opts_mem mode st.attested counts (candClasses pd m l')
              with hq | hmem
            · exact Or.inr ⟨_, hv.symm, Or.inl hq⟩
            · exact Or.inr ⟨_, hv.symm, Or.inr hmem⟩
  · rw [dictGet?_dictSet_ne _ _ hne] at hv
    exact h l' hl' v hv

theorem mState2_eq (pd : ParsedData) (mode : Mode) (m : String) :
    mState2 pd mode m =
      (hard_langs pd m).foldl (hardStep (classCounts pd m) mode)
        ((easy_langs pd m).foldl easyStep ⟨initAsgn pd m, []⟩) := rfl

theorem asgnOk_mState2 (pd : ParsedData) (mode : Mode) (m : String) :
    asgnOk pd m (mState2 pd mode m) := by
  rw [mState2_eq]
  apply foldl_invariant (asgnOk pd m) _ (fun s a hs => asgnOk_hardStep _ _ s a hs)
  apply foldl_invariant (asgnOk pd m) _ (fun s a hs => asgnOk_easyStep s a hs)
  intro l hl v hv
  rw [dictGet?_initAsgn, if_pos hl] at hv
  injection hv with hv
  exact Or.inl hv.symm

/-- After both assignment passes, every genuine language carries a single
assigned class, which is `"?"` or one of its candidate classes. -/
theorem mState2_asgn_cls (formRows : List FormRow) (cogRows : List CogRow)
    (mode : Mode) (m : String) :
    ∀ l ∈ (parse_form_table formRows cogRows).languages,
      ∃ c, dictGet? (mState2 (parse_form_table formRows cogRows) mode m).asgn l =
          some (.cls c) ∧
        (c = "?" ∨ c ∈ candClasses (parse_form_table formRows cogRows) m l) := by
  intro l hl
  have hOk := asgnOk_mState2 (parse_form_table formRows cogRows) mode m
  suffices hcov : ∃ c,
      dictGet? (mState2 (parse_form_table formRows cogRows) mode m).asgn l =
        some (.cls c) by
    obtain ⟨c, hc⟩ := hcov
    rcases hOk l hl _ hc with heq | ⟨c', heq, hc'⟩
    · exact absurd heq (by simp)
    · injection heq with heq
      subst heq
      exact ⟨c, hc, hc'⟩
  rw [mState2_eq]
  rcases mem_easy_or_hard (parse_form_table formRows cogRows) m hl with heasy | hhard
  · -- easy language: assigned during the easy pass, untouched by the hard pass
    have hnotHard : l ∉ hard_langs (parse_form_table formRows cogRows) m := by
      intro hh
      exact (mem_hard_langs.mp hh).2 heasy
    obtain ⟨e1, e2, e3⟩ := easy_foldl_spec
      (fun l => (candClasses (parse_form_table formRows cogRows) m l).headD "?")
      (easy_langs (parse_form_table formRows cogRows) m)
      ⟨initAsgn (parse_form_table formRows cogRows) m, []⟩
      (easy_langs_nodup formRows cogRows m)
      (by
        intro l' hl'
        have hl'lang := (mem_easy_langs.mp hl').1
        rw [dictGet?_initAsgn, if_pos hl'lang]
        rw [← easy_candClasses_singleton formRows cogRows hl'])
    obtain ⟨h1, h2⟩ := hard_foldl_spec (classCounts (parse_form_table formRows cogRows) m)
      mode (hard_langs (parse_form_table formRows cogRows) m)
      ((easy_langs (parse_form_table formRows cogRows) m).foldl easyStep
        ⟨initAsgn (parse_form_table formRows cogRows) m, []⟩)
      (hard_langs_nodup formRows cogRows m)
    rw [h2 l hnotHard]
    exact ⟨_, e1 l heasy⟩
  · obtain ⟨h1, h2⟩ := hard_foldl_spec (classCounts (parse_form_table formRows cogRows) m)
      mode (hard_langs (parse_form_table formRows cogRows) m)
      ((easy_langs (parse_form_table formRows cogRows) m).foldl easyStep
        ⟨initAsgn (parse_form_table formRows cogRows) m, []⟩)
      (hard_langs_nodup formRows cogRows m)
    exact h1 l hhard

/-! ### The form-resolution pass -/

theorem resolve_foldl_error (pick : List String → String) (pd : ParsedData) (m : String)
    (asgn : List (String × CogVal)) (L : List String) (e : KillErr) :
    L.foldl (resolveStep pick pd m asgn) (.error e) = .error e := by
  induction L with
  | nil => rfl
  | cons l rest ih => simpa [resolveStep] using ih

theorem findSurvivor_ok_some_mem {cogmap : List (String × String)} {v : CogVal}
    {fs : List String} {f : String} (h : findSurvivor cogmap v fs = .ok (some f)) :
    f ∈ fs ∧ ∃ c, dictGet? cogmap f = some c ∧ v.eqStr c = true := by
  induction fs with
  | nil => simp [findSurvivor] at h
  | cons g rest ih =>
      unfold findSurvivor at h
      cases hg : dictGet? cogmap g with
      | none => rw [hg] at h; dsimp only at h; exact absurd h (by simp)
      | some c =>
          rw [hg] at h
          dsimp only at h
          by_cases he : v.eqStr c
          · rw [if_pos he] at h
            injection h with h
            injection h with h
            subst h
            exact ⟨List.mem_cons_self _ _, c, hg, he⟩
          · rw [if_neg he] at h
            obtain ⟨h1, h2⟩ := ih h
            exact ⟨List.mem_cons_of_mem _ h1, h2⟩

/-- If the assigned class has a representative among the candidates, the
matching scan cannot come back empty. -/
theorem findSurvivor_ne_ok_none {cogmap : List (String × String)} {c : String}
    {fs : List String} {f0 : String} (hf0 : f0 ∈ fs)
    (hc : dictGet? cogmap f0 = some c) :
    findSurvivor cogmap (.cls c) fs ≠ .ok none := by
  induction fs with
  | nil => simp at hf0
  | cons g rest ih =>
      unfold findSurvivor
      cases hg : dictGet? cogmap g with
      | none => simp
      | some c' =>
          dsimp only
          by_cases he : CogVal.eqStr (.cls c) c'
          · rw [if_pos he]; simp
          · rw [if_neg he]
            rcases List.mem_cons.mp hf0 with rfl | hrest
            · rw [hg] at hc
              injection hc with hc
              subst hc
              exact absurd (by simp [CogVal.eqStr]) he
            · exact ih hrest

theorem resolveStep_cases (pick : List String → String) (pd : ParsedData) (m : String)
    (asgn : List (String × CogVal)) (keep : List String) (l : String) :
    (∃ e, resolveStep pick pd m asgn (.ok keep) l = .error e ∧ ¬ stepErrFree pd m asgn l) ∨
    (resolveStep pick pd m asgn (.ok keep) l = .ok keep ∧
      chosenForm pick pd m asgn l = none ∧ stepErrFree pd m asgn l) ∨
    (∃ f, resolveStep pick pd m asgn (.ok keep) l = .ok (setAdd keep f) ∧
      chosenForm pick pd m asgn l = some f ∧ stepErrFree pd m asgn l) := by
  unfold resolveStep chosenForm
  cases hforms : dictGet? pd.forms (l, m) with
  | none =>
      dsimp only
      refine Or.inr (Or.inl ⟨rfl, rfl, ?_⟩)
      intro fs hfs
      rw [hforms] at hfs
      exact absurd hfs (by simp)
  | some fs =>
      dsimp only
      by_cases hq : ((dictGet? asgn l).getD (.cls "?")).eqStr "?"
      · simp only [if_pos hq]
        refine Or.inr (Or.inr ⟨pick fs, rfl, rfl, ?_⟩)
        intro fs' hfs'
        exact Or.inl hq
      · simp only [if_neg hq]
        cases hfind : findSurvivor pd.cognate_map ((dictGet? asgn l).getD (.cls "?")) fs with
        | error e =>
            dsimp only
            refine Or.inl ⟨e, rfl, ?_⟩
            intro hfree
            rcases hfree fs hforms with h1 | h2
            · exact hq h1
            · exact h2 e hfind
        | ok r =>
            have hfree : stepErrFree pd m asgn l := by
              intro fs' hfs'
              rw [hforms] at hfs'
              injection hfs' with hfs'
              subst hfs'
              refine Or.inr (fun e he => ?_)
              rw [hfind] at he
              exact absurd he (by simp)
            cases r with
            | none => exact Or.inr (Or.inl ⟨rfl, rfl, hfree⟩)
            | some f => exact Or.inr (Or.inr ⟨f, rfl, rfl, hfree⟩)

/-- Characterisation of a successful resolution fold: the survivor set
grows exactly by the chosen form of each processed language, and no step
raised. -/
theorem resolve_foldl_ok (pick : List String → String) (pd : ParsedData) (m : String)
    (asgn : List (String × CogVal)) :
    ∀ (L : List String) (keep res : List String),
      L.foldl (resolveStep pick pd m asgn) (.ok keep) = .ok res →
      (∀ f, f ∈ res ↔ f ∈ keep ∨ ∃ l ∈ L, chosenForm pick pd m asgn l = some f) ∧
      (∀ l ∈ L, stepErrFree pd m asgn l) := by
  intro L
  induction L with
  | nil =>
      intro keep res h
      injection h with h
      subst h
      simp
  | cons l rest ih =>
      intro keep res h
      simp only [List.foldl_cons] at h
      rcases resolveStep_cases pick pd m asgn keep l with
        ⟨e, he, _⟩ | ⟨hstep, hchosen, hfree⟩ | ⟨f0, hstep, hchosen, hfree⟩
      · rw [he, resolve_foldl_error] at h
        exact absurd h (by simp)
      · rw [hstep] at h
        obtain ⟨ih1, ih2⟩ := ih keep res h
        constructor
        · intro f
          rw [ih1 f]
          constructor
          · rintro (hf | ⟨l', hl', hc⟩)
            · exact Or.inl hf
            · exact Or.inr ⟨l', List.mem_cons_of_mem _ hl', hc⟩
          · rintro (hf | ⟨l', hl', hc⟩)
            · exact Or.inl hf
            · rcases List.mem_cons.mp hl' with rfl | hl'r
              · rw [hchosen] at hc; exact absurd hc (by simp)
              · exact Or.inr ⟨l', hl'r, hc⟩
        · intro l' hl'
          rcases List.mem_cons.mp hl' with rfl | hl'r
          · exact hfree
          · exact ih2 l' hl'r
      · rw [hstep] at h
        obtain ⟨ih1, ih2⟩ := ih (setAdd keep f0) res h
        constructor
        · intro f
          rw [ih1 f]
          simp only [mem_setAdd]
          constructor
          · rintro ((hf | rfl) | ⟨l', hl', hc⟩)
            · exact Or.inl hf
            · exact Or.inr ⟨l, List.mem_cons_self _ _, hchosen⟩
            · exact Or.inr ⟨l', List.mem_cons_of_mem _ hl', hc⟩
          · rintro (hf | ⟨l', hl', hc⟩)
            · exact Or.inl (Or.inl hf)
            · rcases List.mem_cons.mp hl' with rfl | hl'r
              · rw [hchosen] at hc
                injection hc with hc
                exact Or.inl (Or.inr hc.symm)
              · exact Or.inr ⟨l', hl'r, hc⟩
        · intro l' hl'
          rcases List.mem_cons.mp hl' with rfl | hl'r
          · exact hfree
          · exact ih2 l' hl'r

/-- If no step can raise, the resolution fold succeeds. -/
theorem resolve_foldl_ok_of_free (pick : List String → String) (pd : ParsedData) (m : String)
    (asgn : List (String × CogVal)) :
    ∀ (L : List String) (keep : List String),
      (∀ l ∈ L, stepErrFree pd m asgn l) →
      ∃ res, L.foldl (resolveStep pick pd m asgn) (.ok keep) = .ok res := by
  intro L
  induction L with
  | nil => intro keep _; exact ⟨keep, rfl⟩
  | cons l rest ih =>
      intro keep hfree
      simp only [List.foldl_cons]
      rcases resolveStep_cases pick pd m asgn keep l with
        ⟨e, he, hnf⟩ | ⟨hstep, -, -⟩ | ⟨f0, hstep, -, -⟩
      · exact absurd (hfree l (List.mem_cons_self _ _)) hnf
      · rw [hstep]
        exact ih keep (fun l' hl' => hfree l' (List.mem_cons_of_mem _ hl'))
      · rw [hstep]
        exact ih (setAdd keep f0) (fun l' hl' => hfree l' (List.mem_cons_of_mem _ hl'))

theorem minimax_foldl_error (pick : List String → String) (mode : Mode) (pd : ParsedData)
    (M : List String) (e : KillErr) :
    M.foldl (meaningStep pick mode pd) (.error e) = .error e := by
  induction M with
  | nil => rfl
  | cons m rest ih => simpa [meaningStep] using ih

/-- Characterisation of a successful run over a list of meanings: the
survivor set consists exactly of the chosen forms, and no resolution step
of any processed meaning can raise. -/
theorem minimax_foldl_ok (pick : List String → String) (mode : Mode) (pd : ParsedData) :
    ∀ (M : List String) (keep res : List String),
      M.foldl (meaningStep pick mode pd) (.ok keep) = .ok res →
      (∀ f, f ∈ res ↔ f ∈ keep ∨ ∃ m ∈ M, ∃ l ∈ pd.languages,
        chosenForm pick pd m (mState2 pd mode m).asgn l = some f) ∧
      (∀ m ∈ M, ∀ l ∈ pd.languages, stepErrFree pd m (mState2 pd mode m).asgn l) := by
  intro M
  induction M with
  | nil =>
      intro keep res h
      injection h with h
      subst h
      simp
  | cons m rest ih =>
      intro keep res h
      simp only [List.foldl_cons, meaningStep] at h
      cases hpm : processMeaning pick mode pd keep m with
      | error e =>
          rw [hpm] at h
          rw [minimax_foldl_error] at h
          exact absurd h (by simp)
      | ok keep1 =>
          rw [hpm] at h
          obtain ⟨ih1, ih2⟩ := ih keep1 res h
          obtain ⟨r1, r2⟩ := resolve_foldl_ok pick pd m (mState2 pd mode m).asgn
            pd.languages keep keep1 hpm
          constructor
          · intro f
            rw [ih1 f, r1 f]
            constructor
            · rintro ((hf | ⟨l, hl, hc⟩) | ⟨m', hm', l, hl, hc⟩)
              · exact Or.inl hf
              · exact Or.inr ⟨m, List.mem_cons_self _ _, l, hl, hc⟩
              · exact Or.inr ⟨m', List.mem_cons_of_mem _ hm', l, hl, hc⟩
            · rintro (hf | ⟨m', hm', l, hl, hc⟩)
              · exact Or.inl (Or.inl hf)
              · rcases List.mem_cons.mp hm' with rfl | hm'r
                · exact Or.inl (Or.inr ⟨l, hl, hc⟩)
                · exact Or.inr ⟨m', hm'r, l, hl, hc⟩
          · intro m' hm' l hl
            rcases List.mem_cons.mp hm' with rfl | hm'r
            · exact r2 l hl
            · exact ih2 m' hm'r l hl

theorem mem_foldl_setAdd {α β : Type} [DecidableEq α] (g : β → α) :
    ∀ (L : List β) (acc : List α) (x : α),
      x ∈ L.foldl (fun acc b => setAdd acc (g b)) acc ↔ x ∈ acc ∨ ∃ b ∈ L, g b = x := by
  intro L
  induction L with
  | nil => intro acc x; simp
  | cons b rest ih =>
      intro acc x
      simp only [List.foldl_cons, ih, mem_setAdd, List.mem_cons]
      constructor
      · rintro ((hx | rfl) | ⟨b', hb', rfl⟩)
        · exact Or.inl hx
        · exact Or.inr ⟨b, Or.inl rfl, rfl⟩
        · exact Or.inr ⟨b', Or.inr hb', rfl⟩
      · rintro (hx | ⟨b', (rfl | hb'), rfl⟩)
        · exact Or.inl (Or.inl hx)
        · exact Or.inl (Or.inr rfl)
        · exact Or.inr ⟨b', hb', rfl⟩

theorem mem_kill_random (pick : List String → String) (formRows : List FormRow)
    (cogRows : List CogRow) (f : String) :
    f ∈ kill_random pick formRows cogRows ↔
      ∃ kv ∈ (parse_form_table formRows cogRows).forms, pick kv.2 = f := by
  unfold kill_random
  rw [mem_foldl_setAdd (fun kv => pick kv.2) (parse_form_table formRows cogRows).forms [] f]
  simp

theorem length_le_one_of_all_eq {α : Type} {xs : List α} {a : α}
    (hnd : xs.Nodup) (hall : ∀ x ∈ xs, x = a) : xs.length ≤ 1 := by
  cases xs with
  | nil => simp
  | cons x t =>
      cases t with
      | nil => simp
      | cons y u =>
          have hx : x = a := hall x (by simp)
          have hy : y = a := hall y (by simp)
          subst hx
          rw [hy] at hnd
          simp at hnd

theorem filter_length_eq_one {α : Type} [DecidableEq α] {xs : List α} {p : α → Bool} {a : α}
    (hnd : xs.Nodup) (ha : a ∈ xs) (hpa : p a = true)
    (huniq : ∀ x ∈ xs, p x = true → x = a) :
    (xs.filter p).length = 1 := by
  have h1 : a ∈ xs.filter p := List.mem_filter.mpr ⟨ha, hpa⟩
  have hle : (xs.filter p).length ≤ 1 :=
    length_le_one_of_all_eq (hnd.filter p)
      (fun x hx => huniq x (List.mem_filter.mp hx).1 (List.mem_filter.mp hx).2)
  have hpos : 0 < (xs.filter p).length := List.length_pos.mpr (List.ne_nil_of_mem h1)
  omega

theorem chosenForm_mem_forms {pick : List String → String} {pd : ParsedData}
    {m : String} {asgn : List (String × CogVal)} {l f : String}
    (hpick : ∀ xs, xs ≠ [] → pick xs ∈ xs)
    (hne : ∀ l' m' fs, dictGet? pd.forms (l', m') = some fs → fs ≠ [])
    (h : chosenForm pick pd m asgn l = some f) :
    ∃ fs, dictGet? pd.forms (l, m) = some fs ∧ f ∈ fs := by
  unfold chosenForm at h
  cases hforms : dictGet? pd.forms (l, m) with
  | none => rw [hforms] at h; exact absurd h (by simp)
  | some fs =>
      rw [hforms] at h
      dsimp only at h
      by_cases hq : ((dictGet? asgn l).getD (.cls "?")).eqStr "?"
      · simp only [if_pos hq] at h
        injection h with h
        subst h
        exact ⟨fs, rfl, hpick fs (hne l m fs hforms)⟩
      · simp only [if_neg hq] at h
        cases hfind : findSurvivor pd.cognate_map ((dictGet? asgn l).getD (.cls "?")) fs with
        | error e => rw [hfind] at h; exact absurd h (by simp)
        | ok r =>
            rw [hfind] at h
            cases r with
            | none => exact absurd h (by simp)
            | some f' =>
                dsimp only at h
                injection h with h
                subst h
                exact ⟨fs, rfl, (findSurvivor_ok_some_mem hfind).1⟩

theorem kill_minimax_eq (pick : List String → String) (formRows : List FormRow)
    (cogRows : List CogRow) (mode : Mode) :
    kill_minimax_cognates pick formRows cogRows mode =
      (parse_form_table formRows cogRows).meanings.foldl
        (meaningStep pick mode (parse_form_table formRows cogRows)) (.ok []) := rfl

/-- For a key that has candidate forms, the resolution step chooses a
survivor from those forms, provided it cannot raise. -/
theorem chosenForm_some_of_key (formRows : List FormRow) (cogRows : List CogRow)
    (pick : List String → String) (mode : Mode) {m l : String} {fs : List String}
    (hpick : ∀ xs, xs ≠ [] → pick xs ∈ xs)
    (hforms : dictGet? (parse_form_table formRows cogRows).forms (l, m) = some fs)
    (hfree : stepErrFree (parse_form_table formRows cogRows) m
      (mState2 (parse_form_table formRows cogRows) mode m).asgn l) :
    ∃ f ∈ fs, chosenForm pick (parse_form_table formRows cogRows) m
      (mState2 (parse_form_table formRows cogRows) mode m).asgn l = some f := by
  obtain ⟨hfs_ne, hl_lang, -⟩ := parse_invariant formRows cogRows l m fs hforms
  obtain ⟨c, hc_entry, hc_mem⟩ := mState2_asgn_cls formRows cogRows mode m l hl_lang
  unfold chosenForm
  rw [hforms]
  dsimp only
  rw [hc_entry]
  simp only [Option.getD_some]
  by_cases hq : c = "?"
  · subst hq
    rw [if_pos (by simp [CogVal.eqStr])]
    exact ⟨pick fs, hpick fs hfs_ne, rfl⟩
  · rw [if_neg (by simp [CogVal.eqStr, hq])]
    rcases hc_mem with hq' | hcand
    · exact absurd hq' hq
    have hcand' : c ∈ fs.map
        (fun f => (dictGet? (parse_form_table formRows cogRows).cognate_map f).getD "?") := by
      unfold candClasses at hcand
      rw [hforms] at hcand
      exact hcand
    obtain ⟨f0, hf0_mem, hf0_eq⟩ := List.mem_map.mp hcand'
    have hf0_lookup : dictGet? (parse_form_table formRows cogRows).cognate_map f0 = some c := by
      cases hlk : dictGet? (parse_form_table formRows cogRows).cognate_map f0 with
      | none =>
          rw [hlk] at hf0_eq
          simp only [Option.getD_none] at hf0_eq
          exact absurd hf0_eq.symm hq
      | some c' =>
          rw [hlk] at hf0_eq
          simp only [Option.getD_some] at hf0_eq
          rw [hf0_eq]
    have hnoerr : ∀ e,
        findSurvivor (parse_form_table formRows cogRows).cognate_map (.cls c) fs ≠
          .error e := by
      rcases hfree fs hforms with h1 | h2
      · rw [hc_entry] at h1
        simp only [Option.getD_some] at h1
        simp [CogVal.eqStr, hq] at h1
      · intro e
        have h3 := h2 e
        rw [hc_entry] at h3
        simpa using h3
    cases hfind : findSurvivor (parse_form_table formRows cogRows).cognate_map (.cls c) fs with
    | error e => exact absurd hfind (hnoerr e)
    | ok r =>
        cases r with
        | none => exact absurd hfind (findSurvivor_ne_ok_none hf0_mem hf0_lookup)
        | some f => exact ⟨f, (findSurvivor_ok_some_mem hfind).1, rfl⟩

theorem processMeaning_eq (pick : List String → String) (mode : Mode) (pd : ParsedData)
    (keep : List String) (m : String) :
    processMeaning pick mode pd keep m =
      pd.languages.foldl (resolveStep pick pd m (mState2 pd mode m).asgn) (.ok keep) := rfl

theorem minimax_foldl_ok_of_free (pick : List String → String) (mode : Mode)
    (pd : ParsedData) :
    ∀ (M : List String) (keep : List String),
      (∀ m ∈ M, ∀ l ∈ pd.languages, stepErrFree pd m (mState2 pd mode m).asgn l) →
      ∃ res, M.foldl (meaningStep pick mode pd) (.ok keep) = .ok res := by
  intro M
  induction M with
  | nil => intro keep _; exact ⟨keep, rfl⟩
  | cons m rest ih =>
      intro keep hfree
      obtain ⟨keep1, hkeep1⟩ := resolve_foldl_ok_of_free pick pd m (mState2 pd mode m).asgn
        pd.languages keep (hfree m (List.mem_cons_self _ _))
      obtain ⟨res, hres⟩ := ih keep1
        (fun m' hm' => hfree m' (List.mem_cons_of_mem _ hm'))
      refine ⟨res, ?_⟩
      simp only [List.foldl_cons, meaningStep]
      rw [← processMeaning_eq] at hkeep1
      rw [hkeep1]
      exact hres

/-- When a key holds exactly one candidate form, the resolution step
cannot raise and chooses exactly that form, whatever the mode. -/
theorem chosenForm_singleton (formRows : List FormRow) (cogRows : List CogRow)
    (pick : List String → String) (mode : Mode) {m l g : String}
    (hpick : ∀ xs, xs ≠ [] → pick xs ∈ xs)
    (hforms : dictGet? (parse_form_table formRows cogRows).forms (l, m) = some [g]) :
    chosenForm pick (parse_form_table formRows cogRows) m
      (mState2 (parse_form_table formRows cogRows) mode m).asgn l = some g ∧
    stepErrFree (parse_form_table formRows cogRows) m
      (mState2 (parse_form_table formRows cogRows) mode m).asgn l := by
  have hl_lang := (parse_invariant formRows cogRows l m [g] hforms).2.1
  obtain ⟨c, hc_entry, hc_mem⟩ := mState2_asgn_cls formRows cogRows mode m l hl_lang
  have hpickg : pick [g] = g := by
    have h := hpick [g] (by simp)
    simpa using h
  by_cases hq : c = "?"
  · subst hq
    constructor
    · unfold chosenForm
      rw [hforms]
      dsimp only
      rw [hc_entry]
      simp only [Option.getD_some]
      rw [if_pos (by simp [CogVal.eqStr])]
      rw [hpickg]
    · intro fs hfs
      rw [hc_entry]
      simp only [Option.getD_some]
      exact Or.inl (by simp [CogVal.eqStr])
  · rcases hc_mem with hq' | hcand
    · exact absurd hq' hq
    have hcand' : c ∈ [((dictGet? (parse_form_table formRows cogRows).cognate_map g).getD
        "?")] := by
      unfold candClasses at hcand
      rw [hforms] at hcand
      simpa using hcand
    have hc_eq : ((dictGet? (parse_form_table formRows cogRows).cognate_map g).getD "?")
        = c := by
      simp only [List.mem_singleton] at hcand'
      exact hcand'.symm
    have hg_lookup : dictGet? (parse_form_table formRows cogRows).cognate_map g = some c := by
      cases hlk : dictGet? (parse_form_table formRows cogRows).cognate_map g with
      | none =>
          rw [hlk] at hc_eq
          simp only [Option.getD_none] at hc_eq
          exact absurd hc_eq.symm hq
      | some c' =>
          rw [hlk] at hc_eq
          simp only [Option.getD_some] at hc_eq
          rw [hc_eq]
    have hfind : findSurvivor (parse_form_table formRows cogRows).cognate_map
        (.cls c) [g] = .ok (some g) := by
      unfold findSurvivor
      rw [hg_lookup]
      dsimp only
      rw [if_pos (by simp [CogVal.eqStr])]
    constructor
    · unfold chosenForm
      rw [hforms]
      dsimp only
      rw [hc_entry]
      simp only [Option.getD_some]
      rw [if_neg (by simp [CogVal.eqStr, hq])]
      rw [hfind]
    · intro fs hfs
      rw [hforms] at hfs
      injection hfs with hfs
      subst hfs
      rw [hc_entry]
      simp only [Option.getD_some]
      refine Or.inr (fun e he => ?_)
      rw [hfind] at he
      exact absurd he (by simp)

/-! ### Claim theorems -/

/-- C1: Coverage: for every (language, meaning) key whose candidate set is
non-empty, the survivor set produced by each of the three strategies
(Random via `kill_random`; MinimizeClasses and MaximizeClasses via
`kill_minimax_cognates`, whenever it returns a survivor set) contains
exactly one form from that key's candidate set; no key with candidates is
dropped.  Forms are assumed to belong to a single key (the data-model
invariant), and the random oracle returns an element of its input. -/
theorem C1_coverage (pick : List String → String) (formRows : List FormRow)
    (cogRows : List CogRow)
    (hpick : ∀ xs, xs ≠ [] → pick xs ∈ xs)
    (hdisj : ∀ kv1 ∈ (parse_form_table formRows cogRows).forms,
      ∀ kv2 ∈ (parse_form_table formRows cogRows).forms,
      kv1.1 ≠ kv2.1 → ∀ f ∈ kv1.2, f ∉ kv2.2) :
    (∀ l m fs, dictGet? (parse_form_table formRows cogRows).forms (l, m) = some fs →
      (fs.dedup.filter (fun f => decide (f ∈ kill_random pick formRows cogRows))).length
        = 1) ∧
    (∀ (mode : Mode) (surv : List String),
      kill_minimax_cognates pick formRows cogRows mode = .ok surv →
      ∀ l m fs, dictGet? (parse_form_table formRows cogRows).forms (l, m) = some fs →
      (fs.dedup.filter (fun f => decide (f ∈ surv))).length = 1) := by
  constructor
  · -- Random strategy
    intro l m fs hforms
    have hfs_ne : fs ≠ [] := (parse_invariant formRows cogRows l m fs hforms).1
    refine filter_length_eq_one (List.nodup_dedup fs)
      (List.mem_dedup.mpr (hpick fs hfs_ne)) (decide_eq_true ?_) ?_
    · exact (mem_kill_random pick formRows cogRows _).mpr
        ⟨((l, m), fs), mem_of_dictGet?_eq_some hforms, rfl⟩
    · intro x hx hpx
      have hx_fs : x ∈ fs := List.mem_dedup.mp hx
      have hx_surv : x ∈ kill_random pick formRows cogRows := of_decide_eq_true hpx
      obtain ⟨⟨⟨l', m'⟩, fs'⟩, hkv, hpe⟩ :=
        (mem_kill_random pick formRows cogRows x).mp hx_surv
      have hget' : dictGet? (parse_form_table formRows cogRows).forms (l', m') = some fs' :=
        dictGet?_eq_some_of_mem (parse_forms_nodupkeys formRows cogRows) hkv
      have hfs'_ne : fs' ≠ [] := (parse_invariant formRows cogRows l' m' fs' hget').1
      have hx_fs' : x ∈ fs' := by
        rw [← hpe]
        exact hpick fs' hfs'_ne
      by_cases hkey : ((l', m') : String × String) = (l, m)
      · rw [hkey] at hget'
        rw [hforms] at hget'
        injection hget' with hget'
        subst hget'
        exact hpe.symm
      · exact absurd hx_fs'
          (hdisj ((l, m), fs) (mem_of_dictGet?_eq_some hforms)
            ((l', m'), fs') (mem_of_dictGet?_eq_some hget')
            (fun hh => hkey hh.symm) x hx_fs)
  · -- Minimax strategies
    intro mode surv hok l m fs hforms
    rw [kill_minimax_eq] at hok
    obtain ⟨hmem, hfree⟩ :=
      minimax_foldl_ok pick mode (parse_form_table formRows cogRows) _ [] surv hok
    obtain ⟨hfs_ne, hl_lang, hm_mean⟩ := parse_invariant formRows cogRows l m fs hforms
    obtain ⟨fstar, hfstar_fs, hcf⟩ :=
      chosenForm_some_of_key formRows cogRows pick mode hpick hforms
        (hfree m hm_mean l hl_lang)
    refine filter_length_eq_one (List.nodup_dedup fs)
      (List.mem_dedup.mpr hfstar_fs) (decide_eq_true ?_) ?_
    · exact (hmem fstar).mpr (Or.inr ⟨m, hm_mean, l, hl_lang, hcf⟩)
    · intro x hx hpx
      have hx_fs : x ∈ fs := List.mem_dedup.mp hx
      have hx_surv : x ∈ surv := of_decide_eq_true hpx
      rcases (hmem x).mp hx_surv with hx_nil | ⟨m', hm', l', hl', hcx⟩
      · exact absurd hx_nil (List.not_mem_nil x)
      obtain ⟨fs', hget', hx_fs'⟩ := chosenForm_mem_forms hpick
        (fun a b c hd => (parse_invariant formRows cogRows a b c hd).1) hcx
      by_cases hkey : ((l', m') : String × String) = (l, m)
      · obtain ⟨h1, h2⟩ := Prod.ext_iff.mp hkey
        dsimp at h1 h2
        subst h1
        subst h2
        rw [hforms] at hget'
        injection hget' with hget'
        subst hget'
        rw [hcf] at hcx
        injection hcx with hcx
        exact hcx.symm
      · exact absurd hx_fs'
          (hdisj ((l, m), fs) (mem_of_dictGet?_eq_some hforms)
            ((l', m'), fs') (mem_of_dictGet?_eq_some hget')
            (fun hh => hkey hh.symm) x hx_fs)

/-- C6: Idempotence of re-filtering: on a dataset in which every
(language, meaning) key has at most one candidate form, every strategy
returns exactly the set of those candidate forms (minimax without
raising), so re-running a strategy on an already-reduced dataset leaves
the survivor set unchanged. -/
theorem C6_idempotence (pick : List String → String) (formRows : List FormRow)
    (cogRows : List CogRow)
    (hpick : ∀ xs, xs ≠ [] → pick xs ∈ xs)
    (hsing : ∀ kv ∈ (parse_form_table formRows cogRows).forms, kv.2.length ≤ 1) :
    (∀ f, f ∈ kill_random pick formRows cogRows ↔
      ∃ l m fs, dictGet? (parse_form_table formRows cogRows).forms (l, m) = some fs ∧
        f ∈ fs) ∧
    (∀ mode : Mode, ∃ surv,
      kill_minimax_cognates pick formRows cogRows mode = .ok surv ∧
      ∀ f, f ∈ surv ↔
        ∃ l m fs, dictGet? (parse_form_table formRows cogRows).forms (l, m) = some fs ∧
          f ∈ fs) := by
  have hsing' : ∀ l m fs,
      dictGet? (parse_form_table formRows cogRows).forms (l, m) = some fs →
      ∃ g, fs = [g] := by
    intro l m fs hget
    have h1 : fs.length ≤ 1 := hsing ((l, m), fs) (mem_of_dictGet?_eq_some hget)
    have h2 : fs ≠ [] := (parse_invariant formRows cogRows l m fs hget).1
    have h3 : 0 < fs.length := List.length_pos.mpr h2
    exact List.length_eq_one.mp (by omega)
  constructor
  · intro f
    rw [mem_kill_random]
    constructor
    · rintro ⟨⟨⟨l, m⟩, fs⟩, hkv, hpe⟩
      have hget : dictGet? (parse_form_table formRows cogRows).forms (l, m) = some fs :=
        dictGet?_eq_some_of_mem (parse_forms_nodupkeys formRows cogRows) hkv
      have hfs_ne : fs ≠ [] := (parse_invariant formRows cogRows l m fs hget).1
      refine ⟨l, m, fs, hget, ?_⟩
      rw [← hpe]
      exact hpick fs hfs_ne
    · rintro ⟨l, m, fs, hget, hf⟩
      obtain ⟨g, rfl⟩ := hsing' l m fs hget
      simp only [List.mem_singleton] at hf
      subst hf
      refine ⟨((l, m), [f]), mem_of_dictGet?_eq_some hget, ?_⟩
      have h := hpick [f] (by simp)
      simpa using h
  · intro mode
    have hfree : ∀ m ∈ (parse_form_table formRows cogRows).meanings,
        ∀ l ∈ (parse_form_table formRows cogRows).languages,
        stepErrFree (parse_form_table formRows cogRows) m
          (mState2 (parse_form_table formRows cogRows) mode m).asgn l := by
      intro m _ l _ fs hget
      obtain ⟨g, rfl⟩ := hsing' l m fs hget
      obtain ⟨-, h2⟩ := chosenForm_singleton formRows cogRows pick mode hpick hget
      exact h2 [g] hget
    obtain ⟨surv, hsurv⟩ := minimax_foldl_ok_of_free pick mode
      (parse_form_table formRows cogRows) (parse_form_table formRows cogRows).meanings
      [] hfree
    refine ⟨surv, by rw [kill_minimax_eq]; exact hsurv, ?_⟩
    obtain ⟨hmem, -⟩ := minimax_foldl_ok pick mode (parse_form_table formRows cogRows)
      _ [] surv hsurv
    intro f
    rw [hmem f]
    constructor
    · rintro (hnil | ⟨m, hm, l, hl, hcf⟩)
      · exact absurd hnil (List.not_mem_nil f)
      · obtain ⟨fs, hget, hf⟩ := chosenForm_mem_forms hpick
          (fun a b c hd => (parse_invariant formRows cogRows a b c hd).1) hcf
        exact ⟨l, m, fs, hget, hf⟩
    · rintro ⟨l, m, fs, hget, hf⟩
      obtain ⟨g, rfl⟩ := hsing' l m fs hget
      simp only [List.mem_singleton] at hf
      subst hf
      obtain ⟨h1, -⟩ := chosenForm_singleton formRows cogRows pick mode hpick hget
      refine Or.inr ⟨m, (parse_invariant formRows cogRows l m [f] hget).2.2, l,
        (parse_invariant formRows cogRows l m [f] hget).2.1, h1⟩

/-! ### Report lemmas -/

theorem forms_nil_of_degenerate (formRows : List FormRow) (cogRows : List CogRow)
    (h : (parse_form_table formRows cogRows).languages = [] ∨
      (parse_form_table formRows cogRows).meanings = []) :
    (parse_form_table formRows cogRows).forms = [] := by
  cases hf : (parse_form_table formRows cogRows).forms with
  | nil => rfl
  | cons kv rest =>
      obtain ⟨⟨l, m⟩, fs⟩ := kv
      have hkv : ((l, m), fs) ∈ (parse_form_table formRows cogRows).forms := by
        rw [hf]; exact List.mem_cons_self _ _
      have hget := dictGet?_eq_some_of_mem (parse_forms_nodupkeys formRows cogRows) hkv
      obtain ⟨-, hl, hm⟩ := parse_invariant formRows cogRows l m fs hget
      rcases h with h | h
      · rw [h] at hl; exact absurd hl (List.not_mem_nil l)
      · rw [h] at hm; exact absurd hm (List.not_mem_nil m)

/-- The `ZeroDivisionError` branch of `report` is unreachable: the `max()`
over an empty sequence fails first, and a non-empty `forms` dictionary
forces non-empty language and meaning sets. -/
theorem report_ne_divZero (formRows : List FormRow) (cogRows : List CogRow) :
    report formRows cogRows ≠ .error .divZero := by
  unfold report
  dsimp only
  cases hmx : ((parse_form_table formRows cogRows).forms.map (fun kv => kv.2.length)).max?
    with
  | none => simp
  | some mx =>
      dsimp only
      have hsz : (parse_form_table formRows cogRows).forms ≠ [] := by
        intro hf
        rw [hf] at hmx
        simp [List.max?] at hmx
      obtain ⟨kv, hkv⟩ := List.exists_mem_of_ne_nil _ hsz
      obtain ⟨⟨l, m⟩, fs⟩ := kv
      have hget := dictGet?_eq_some_of_mem (parse_forms_nodupkeys formRows cogRows) hkv
      obtain ⟨-, hl, hm⟩ := parse_invariant formRows cogRows l m fs hget
      have h1 : 0 < (parse_form_table formRows cogRows).languages.length :=
        List.length_pos.mpr (List.ne_nil_of_mem hl)
      have h2 : 0 < (parse_form_table formRows cogRows).meanings.length :=
        List.length_pos.mpr (List.ne_nil_of_mem hm)
      have hprod : (parse_form_table formRows cogRows).languages.length *
          (parse_form_table formRows cogRows).meanings.length ≠ 0 :=
        Nat.mul_ne_zero (by omega) (by omega)
      rw [if_neg hprod]
      simp

/-! ### Cognate-map lemmas -/

theorem parse_cognate_map_eq (formRows : List FormRow) (cogRows : List CogRow) :
    (parse_form_table formRows cogRows).cognate_map = cogRows.foldl addCogRow [] := by
  show cogRows.foldl addCogRow (formRows.foldl addFormRow ⟨[], [], [], []⟩).cognate_map =
    cogRows.foldl addCogRow []
  have h : ∀ (rows : List FormRow) (pd : ParsedData),
      (rows.foldl addFormRow pd).cognate_map = pd.cognate_map := by
    intro rows
    induction rows with
    | nil => intro pd; rfl
    | cons r rest ih => intro pd; exact (ih _).trans rfl
  rw [h formRows ⟨[], [], [], []⟩]

theorem dictGet?_foldl_addCogRow :
    ∀ (rows : List CogRow) (init : List (String × String)) (fid : String),
      dictGet? (rows.foldl addCogRow init) fid =
        match rows.reverse.find? (fun r => r.formId == fid) with
        | some r => some r.cogsetId
        | none => dictGet? init fid := by
  intro rows
  induction rows with
  | nil => intro init fid; simp
  | cons r rest ih =>
      intro init fid
      simp only [List.foldl_cons, ih, List.reverse_cons, List.find?_append]
      cases hfind : rest.reverse.find? (fun r => r.formId == fid) with
      | some r' => simp
      | none =>
          simp only [Option.none_or]
          unfold addCogRow
          by_cases hid : r.formId = fid
          · subst hid
            rw [dictGet?_dictSet_self]
            simp [List.find?]
          · rw [dictGet?_dictSet_ne _ _ (Ne.symm hid)]
            have : (r.formId == fid) = false := by
              simp [hid]
            simp [List.find?, this]

/-- C7 (counterexample): on the empty dataset (zero languages, zero
meanings), `report` does fail, but with the `ValueError` of `max()` over
an empty sequence (line 49), not with the claimed division-by-zero of the
synonymy-ratio computation (line 50). -/
theorem C7_counterexample :
    (parse_form_table ([] : List FormRow) ([] : List CogRow)).languages = [] ∧
    report [] [] = .error .emptyMax ∧
    report [] [] ≠ .error .divZero := by
  refine ⟨rfl, rfl, fun h => ?_⟩
  have h2 := (show report [] [] = Except.error ReportErr.emptyMax from rfl).symm.trans h
  injection h2 with h3
  exact ReportErr.noConfusion h3

/-- C7 (amended): when the `report` operation is run on a dataset with
zero languages or zero meanings, it fails with a fatal error — but the
error is the `ValueError` raised by `max()` over the empty form-count
sequence, reached before the synonymy-ratio division; the
division-by-zero is unreachable. -/
theorem C7_report_degenerate (formRows : List FormRow) (cogRows : List CogRow)
    (h : (parse_form_table formRows cogRows).languages = [] ∨
      (parse_form_table formRows cogRows).meanings = []) :
    report formRows cogRows = .error .emptyMax ∧
    report formRows cogRows ≠ .error .divZero := by
  have hforms := forms_nil_of_degenerate formRows cogRows h
  constructor
  · unfold report
    dsimp only
    rw [hforms]
    simp [List.max?]
  · exact report_ne_divZero formRows cogRows

theorem C7_report_degenerate_witness :
    report [] [] = .error .emptyMax ∧ report [] [] ≠ .error .divZero :=
  C7_report_degenerate [] [] (Or.inl rfl)

/-- C8: in the Record Aggregator, the form-to-cognate-class mapping is a
total function of the cognate rows alone: looking up a form id yields the
class of the *last* record with that id in input order (duplicate
assignments are silently permitted, last write wins), and every record's
form id is retained in the mapping, whether or not it occurs in any form
record. -/
theorem C8_last_write_wins (formRows : List FormRow) (cogRows : List CogRow) :
    (∀ fid, dictGet? (parse_form_table formRows cogRows).cognate_map fid =
      (cogRows.reverse.find? (fun r => r.formId == fid)).map (fun r => r.cogsetId)) ∧
    (∀ r ∈ cogRows, ∃ v,
      dictGet? (parse_form_table formRows cogRows).cognate_map r.formId = some v) := by
  have hmap := parse_cognate_map_eq formRows cogRows
  have hlaw : ∀ fid, dictGet? (parse_form_table formRows cogRows).cognate_map fid =
      (cogRows.reverse.find? (fun r => r.formId == fid)).map (fun r => r.cogsetId) := by
    intro fid
    rw [hmap, dictGet?_foldl_addCogRow cogRows [] fid]
    cases hfind : cogRows.reverse.find? (fun r => r.formId == fid) with
    | some r => simp
    | none => simp [dictGet?]
  refine ⟨hlaw, ?_⟩
  intro r hr
  rw [hlaw r.formId]
  have hex : ∃ r' ∈ cogRows.reverse, (fun r' => r'.formId == r.formId) r' = true :=
    ⟨r, List.mem_reverse.mpr hr, by simp⟩
  obtain ⟨r'', hfind⟩ := Option.isSome_iff_exists.mp (List.find?_isSome.mpr hex)
  rw [hfind]
  exact ⟨r''.cogsetId, rfl⟩

theorem C8_last_write_wins_witness :
    dictGet? (parse_form_table [⟨"f1", "l1", "m1"⟩]
        [⟨"f1", "A"⟩, ⟨"fX", "B"⟩, ⟨"f1", "C"⟩]).cognate_map "f1" = some "C" ∧
    ∃ v, dictGet? (parse_form_table [⟨"f1", "l1", "m1"⟩]
        [⟨"f1", "A"⟩, ⟨"fX", "B"⟩, ⟨"f1", "C"⟩]).cognate_map
        (CogRow.formId ⟨"fX", "B"⟩) = some v := by
  constructor
  · have h := (C8_last_write_wins [⟨"f1", "l1", "m1"⟩]
      [⟨"f1", "A"⟩, ⟨"fX", "B"⟩, ⟨"f1", "C"⟩]).1 "f1"
    rw [h]
    rfl
  · exact (C8_last_write_wins [⟨"f1", "l1", "m1"⟩]
      [⟨"f1", "A"⟩, ⟨"fX", "B"⟩, ⟨"f1", "C"⟩]).2 ⟨"fX", "B"⟩ (by simp)

/-! ### The sort order of the hard-assignment options -/

theorem charsLe_refl : ∀ l : List Char, charsLe l l = true := by
  intro l
  induction l with
  | nil => rfl
  | cons a as ih =>
      unfold charsLe
      rw [if_neg (lt_irrefl a.toNat), if_neg (lt_irrefl a.toNat)]
      exact ih

theorem charsLe_total : ∀ l m : List Char, charsLe l m = true ∨ charsLe m l = true := by
  intro l
  induction l with
  | nil => intro m; exact Or.inl rfl
  | cons a as ih =>
      intro m
      cases m with
      | nil => exact Or.inr rfl
      | cons b bs =>
          rcases Nat.lt_trichotomy a.toNat b.toNat with h | h | h
          · left; unfold charsLe; rw [if_pos h]
          · have h1 : ¬ a.toNat < b.toNat := by omega
            have h2 : ¬ b.toNat < a.toNat := by omega
            unfold charsLe
            simp only [if_neg h1, if_neg h2]
            exact ih bs
          · right; unfold charsLe; rw [if_pos h]

theorem charsLe_trans : ∀ l m n : List Char, charsLe l m = true → charsLe m n = true →
    charsLe l n = true := by
  intro l
  induction l with
  | nil => intro m n h1 h2; rfl
  | cons a as ih =>
      intro m n h1 h2
      cases m with
      | nil => exact absurd h1 (by simp [charsLe])
      | cons b bs =>
          cases n with
          | nil => exact absurd h2 (by simp [charsLe])
          | cons c cs =>
              unfold charsLe at h1 h2 ⊢
              split_ifs at h1 h2 ⊢ <;>
                first
                | rfl
                | exact ih bs cs h1 h2
                | omega

theorem charsLe_antisymm : ∀ l m : List Char, charsLe l m = true → charsLe m l = true →
    l = m := by
  intro l
  induction l with
  | nil =>
      intro m h1 h2
      cases m with
      | nil => rfl
      | cons b bs => exact absurd h2 (by simp [charsLe])
  | cons a as ih =>
      intro m h1 h2
      cases m with
      | nil => exact absurd h1 (by simp [charsLe])
      | cons b bs =>
          unfold charsLe at h1 h2
          split_ifs at h1 h2 with hab hba <;>
            first
            | omega
            | (have hval : a.toNat = b.toNat := by omega
               have hchar : a = b := Char.ext (UInt32.toNat.inj hval)
               rw [hchar, ih bs h1 h2])

theorem strLe_refl (s : String) : strLe s s = true := charsLe_refl s.data

theorem strLe_total (s t : String) : strLe s t = true ∨ strLe t s = true :=
  charsLe_total s.data t.data

theorem strLe_trans {s t u : String} (h1 : strLe s t = true) (h2 : strLe t u = true) :
    strLe s u = true := charsLe_trans s.data t.data u.data h1 h2

theorem strLe_antisymm {s t : String} (h1 : strLe s t = true) (h2 : strLe t s = true) :
    s = t := String.ext (charsLe_antisymm s.data t.data h1 h2)

theorem lexLe_refl (a : Nat × String) : lexLe a a := Or.inr ⟨rfl, strLe_refl _⟩

instance : IsTrans (Nat × String) lexLe :=
  ⟨by
    rintro a b c (h1 | ⟨h1, h1'⟩) (h2 | ⟨h2, h2'⟩)
    · exact Or.inl (lt_trans h1 h2)
    · exact Or.inl (h2 ▸ h1)
    · exact Or.inl (h1 ▸ h2)
    · exact Or.inr ⟨h1.trans h2, strLe_trans h1' h2'⟩⟩

instance : IsTotal (Nat × String) lexLe :=
  ⟨by
    intro a b
    rcases Nat.lt_trichotomy a.1 b.1 with h | h | h
    · exact Or.inl (Or.inl h)
    · rcases strLe_total a.2 b.2 with h' | h'
      · exact Or.inl (Or.inr ⟨h, h'⟩)
      · exact Or.inr (Or.inr ⟨h.symm, h'⟩)
    · exact Or.inr (Or.inl h)⟩

instance : IsAntisymm (Nat × String) lexLe :=
  ⟨by
    rintro a b (h1 | ⟨h1, h1'⟩) (h2 | ⟨h2, h2'⟩)
    · exact absurd h2 (Nat.lt_asymm h1)
    · rw [h2] at h1
      exact absurd h1 (lt_irrefl _)
    · rw [h1] at h2
      exact absurd h2 (lt_irrefl _)
    · exact Prod.ext_iff.mpr ⟨h1, strLe_antisymm h1' h2'⟩⟩

instance (mode : Mode) : IsTrans (Nat × String) (optRel mode) :=
  ⟨by
    intro a b c h1 h2
    cases mode with
    | min =>
        simp only [optRel] at h1 h2 ⊢
        exact IsTrans.trans c b a h2 h1
    | max =>
        simp only [optRel] at h1 h2 ⊢
        exact IsTrans.trans a b c h1 h2⟩

instance (mode : Mode) : IsTotal (Nat × String) (optRel mode) :=
  ⟨by
    intro a b
    cases mode with
    | min =>
        simp only [optRel]
        exact IsTotal.total b a
    | max =>
        simp only [optRel]
        exact IsTotal.total a b⟩

instance (mode : Mode) : IsAntisymm (Nat × String) (optRel mode) :=
  ⟨by
    intro a b h1 h2
    cases mode with
    | min =>
        simp only [optRel] at h1 h2
        exact antisymm h2 h1
    | max =>
        simp only [optRel] at h1 h2
        exact antisymm h1 h2⟩

theorem sortOptions_sorted (mode : Mode) (opts : List (Nat × String)) :
    List.Sorted (optRel mode) (sortOptions mode opts) :=
  List.sorted_insertionSort (optRel mode) opts

theorem sortOptions_eq_mergeSort (mode : Mode) (opts : List (Nat × String)) :
    sortOptions mode opts = List.mergeSort opts (fun a b => optRel mode a b) :=
  (List.mergeSort_eq_insertionSort (optRel mode) opts).symm

theorem scanPick_eq_find? (mode : Mode) (att : List String) :
    ∀ L : List (Nat × String),
      scanPick mode att L = (L.find? (fun p => prefHolds mode att p.2)).map Prod.snd := by
  intro L
  induction L with
  | nil => rfl
  | cons o rest ih =>
      obtain ⟨n, c⟩ := o
      unfold scanPick
      by_cases hp : prefHolds mode att c
      · have hp' : (fun p : Nat × String => prefHolds mode att p.2) (n, c) = true := by
          simpa using hp
        rw [if_pos hp,
          @List.find?_cons_of_pos _ (fun p : Nat × String => prefHolds mode att p.2)
            (n, c) rest hp']
        rfl
      · have hp' : ¬ (fun p : Nat × String => prefHolds mode att p.2) (n, c) = true := by
          simpa using hp
        rw [if_neg hp,
          @List.find?_cons_of_neg _ (fun p : Nat × String => prefHolds mode att p.2)
            (n, c) rest hp', ih]

theorem hardChoice_eq_spec (mode : Mode) (counts : List (String × Nat))
    (att : List String) (cs : List String) :
    hardChoice mode att (sortOptions mode (cs.map fun c => (countOf counts c, c))) =
      specHardAssign mode counts att cs := by
  unfold hardChoice specHardAssign
  dsimp only
  rw [scanPick_eq_find?, ← sortOptions_eq_mergeSort]
  cases hfind : (sortOptions mode (cs.map fun c => (countOf counts c, c))).find?
      (fun p => prefHolds mode att p.2) with
  | some p => rfl
  | none =>
      dsimp only
      cases sortOptions mode (cs.map fun c => (countOf counts c, c)) with
      | nil => rfl
      | cons o rest => rfl

/-- C4: for every hard language (an entry still holding its candidate
class list), the hard-assignment step equals the specification's
algorithm: build (global class count, class id) pairs, sort by count —
descending in minimize mode, ascending in maximize mode — scan for the
first class already attested (minimize) or not yet attested (maximize),
fall back to the first entry of the sorted list, and mark the chosen
class attested. -/
theorem C4_hard_assignment (counts : List (String × Nat)) (mode : Mode) (st : MState)
    (l : String) (cs : List String)
    (hentry : dictGet? st.asgn l = some (.lst cs)) :
    hardStep counts mode st l =
      { asgn := dictSet st.asgn l (.cls (specHardAssign mode counts st.attested cs)),
        attested := setAdd st.attested (specHardAssign mode counts st.attested cs) } := by
  unfold hardStep
  dsimp only
  rw [hentry]
  dsimp only
  rw [hardChoice_eq_spec]

/-- C9: the sorted options list is a permutation of the (count, class)
pairs ordered by Python's tuple comparison, so ties in global class count
are broken by class identifier: ascending in maximize mode, descending in
minimize mode; scan and fallback read this list in order. -/
theorem C9_tie_break (mode : Mode) (opts : List (Nat × String)) :
    (sortOptions mode opts).Perm opts ∧
    (∀ i j (hi : i < (sortOptions mode opts).length)
        (hj : j < (sortOptions mode opts).length), i < j →
      ((sortOptions mode opts).get ⟨i, hi⟩).1 = ((sortOptions mode opts).get ⟨j, hj⟩).1 →
      ((mode = .max →
          strLe ((sortOptions mode opts).get ⟨i, hi⟩).2
            ((sortOptions mode opts).get ⟨j, hj⟩).2 = true) ∧
       (mode = .min →
          strLe ((sortOptions mode opts).get ⟨j, hj⟩).2
            ((sortOptions mode opts).get ⟨i, hi⟩).2 = true))) := by
  refine ⟨sortOptions_perm mode opts, ?_⟩
  intro i j hi hj hij hcount
  have hrel := (sortOptions_sorted mode opts).rel_get_of_lt
    (show (⟨i, hi⟩ : Fin (sortOptions mode opts).length) < ⟨j, hj⟩ from hij)
  cases mode with
  | max =>
      refine ⟨fun _ => ?_, fun h => Mode.noConfusion h⟩
      simp only [optRel] at hrel
      rcases hrel with h | ⟨-, h⟩
      · rw [hcount] at h
        exact absurd h (lt_irrefl _)
      · exact h
  | min =>
      refine ⟨fun h => Mode.noConfusion h, fun _ => ?_⟩
      simp only [optRel] at hrel
      rcases hrel with h | ⟨-, h⟩
      · rw [hcount] at h
        exact absurd h (lt_irrefl _)
      · exact h

theorem optRel_refl (mode : Mode) (a : Nat × String) : optRel mode a a := by
  cases mode <;> (simp only [optRel]; exact lexLe_refl a)

theorem sortOptions_head?_eq (mode : Mode) (opts : List (Nat × String)) (x : Nat × String)
    (hx : x ∈ opts) (hmin : ∀ p ∈ opts, optRel mode x p) :
    (sortOptions mode opts).head? = some x := by
  cases hS : sortOptions mode opts with
  | nil =>
      have hxS : x ∈ sortOptions mode opts := (sortOptions_perm mode opts).mem_iff.mpr hx
      rw [hS] at hxS
      exact absurd hxS (List.not_mem_nil x)
  | cons h t =>
      have hsorted := sortOptions_sorted mode opts
      rw [hS] at hsorted
      have hxS : x ∈ h :: t := by
        have hx2 : x ∈ sortOptions mode opts := (sortOptions_perm mode opts).mem_iff.mpr hx
        rwa [hS] at hx2
      have hhx : optRel mode h x := by
        rcases List.mem_cons.mp hxS with rfl | hxt
        · exact optRel_refl mode x
        · exact (List.rel_of_sorted_cons hsorted) x hxt
      have hxh : optRel mode x h := by
        refine hmin h ?_
        have hh : h ∈ sortOptions mode opts := by
          rw [hS]
          exact List.mem_cons_self _ _
        exact (sortOptions_perm mode opts).mem_iff.mp hh
      have hxeq : x = h := antisymm hxh hhx
      rw [hxeq]
      rfl

/-- C10: in maximize mode, for a hard language whose candidate list
contains an unclassified form, the `"?"` sentinel enters the options with
global count 0 and sorts first; when `"?"` is not yet attested, the
language is assigned `"?"`, and its survivor is then drawn by the random
oracle from its entire candidate list — even though candidates with real
cognate classes exist. -/
theorem C10_max_unclassified (formRows : List FormRow) (cogRows : List CogRow)
    (pick : List String → String) {m l : String} {fs : List String} (st : MState)
    (hlang : l ∈ (parse_form_table formRows cogRows).languages)
    (hforms : dictGet? (parse_form_table formRows cogRows).forms (l, m) = some fs)
    (hq_mem : "?" ∈ candClasses (parse_form_table formRows cogRows) m l)
    (hreal : ∃ c ∈ candClasses (parse_form_table formRows cogRows) m l, c ≠ "?")
    (hq_att : "?" ∉ st.attested)
    (hentry : dictGet? st.asgn l =
      some (.lst (candClasses (parse_form_table formRows cogRows) m l))) :
    countOf (classCounts (parse_form_table formRows cogRows) m) "?" = 0 ∧
    (sortOptions .max ((candClasses (parse_form_table formRows cogRows) m l).map
      (fun c => (countOf (classCounts (parse_form_table formRows cogRows) m) c, c)))).head?
      = some (0, "?") ∧
    hardStep (classCounts (parse_form_table formRows cogRows) m) .max st l =
      { asgn := dictSet st.asgn l (.cls "?"), attested := setAdd st.attested "?" } ∧
    chosenForm pick (parse_form_table formRows cogRows) m
      (dictSet st.asgn l (.cls "?")) l = some (pick fs) := by
  have hcq := countOf_q_eq_zero (parse_form_table formRows cogRows) m
  have hhead : (sortOptions .max ((candClasses (parse_form_table formRows cogRows) m l).map
      (fun c => (countOf (classCounts (parse_form_table formRows cogRows) m) c, c)))).head?
      = some (0, "?") := by
    refine sortOptions_head?_eq .max _ (0, "?") ?_ ?_
    · have h := List.mem_map_of_mem
        (fun c => (countOf (classCounts (parse_form_table formRows cogRows) m) c, c)) hq_mem
      dsimp only at h
      rwa [hcq] at h
    · intro p hp
      obtain ⟨c, hc_mem, rfl⟩ := List.mem_map.mp hp
      simp only [optRel]
      by_cases hc : c = "?"
      · subst hc
        rw [hcq]
        exact lexLe_refl _
      · exact Or.inl (by
          have := countOf_pos (parse_form_table formRows cogRows) m hlang hc_mem hc
          omega)
  refine ⟨hcq, hhead, ?_, ?_⟩
  · unfold hardStep
    dsimp only
    rw [hentry]
    dsimp only
    cases hS : sortOptions .max ((candClasses (parse_form_table formRows cogRows) m l).map
        (fun c => (countOf (classCounts (parse_form_table formRows cogRows) m) c, c))) with
    | nil => rw [hS] at hhead; exact absurd hhead (by simp)
    | cons p t =>
        rw [hS] at hhead
        have hp : p = (0, "?") := by
          simp only [List.head?] at hhead
          injection hhead
        subst hp
        have hchoice : hardChoice .max st.attested ((0, "?") :: t) = "?" := by
          unfold hardChoice scanPick
          rw [if_pos (by simpa [prefHolds] using hq_att)]
        rw [hchoice]
  · unfold chosenForm
    rw [hforms]
    dsimp only
    rw [dictGet?_dictSet_self]
    simp only [Option.getD_some]
    rw [if_pos (by simp [CogVal.eqStr])]

/-- C2 (counterexample): a single language with one unclassified candidate
form: the easy pass records the `"?"` sentinel in the attested set, in
both modes — refuting "the sentinel is never recorded as attested". -/
theorem C2_counterexample :
    "?" ∈ (mState2 (parse_form_table [⟨"f1", "l1", "m1"⟩] []) .min "m1").attested ∧
    "?" ∈ (mState2 (parse_form_table [⟨"f1", "l1", "m1"⟩] []) .max "m1").attested := by
  decide

/-- C2 (amended): every easy language carries exactly one candidate class —
a language with no forms for the meaning gets the singleton `["?"]`
through the `forms.get(key, "?")` string default (when no form is
literally named `"?"`) — and the easy pass assigns that class and
unconditionally adds it to the attested set, the `"?"` sentinel
included. -/
theorem C2_easy_assignment (formRows : List FormRow) (cogRows : List CogRow) (m : String) :
    ∀ l ∈ easy_langs (parse_form_table formRows cogRows) m,
      ∃ c, candClasses (parse_form_table formRows cogRows) m l = [c] ∧
        dictGet? ((easy_langs (parse_form_table formRows cogRows) m).foldl easyStep
          ⟨initAsgn (parse_form_table formRows cogRows) m, []⟩).asgn l = some (.cls c) ∧
        c ∈ ((easy_langs (parse_form_table formRows cogRows) m).foldl easyStep
          ⟨initAsgn (parse_form_table formRows cogRows) m, []⟩).attested ∧
        (dictGet? (parse_form_table formRows cogRows).forms (l, m) = none →
          dictGet? (parse_form_table formRows cogRows).cognate_map "?" = none →
          c = "?") := by
  intro l hl
  obtain ⟨e1, e2, e3⟩ := easy_foldl_spec
    (fun l => (candClasses (parse_form_table formRows cogRows) m l).headD "?")
    (easy_langs (parse_form_table formRows cogRows) m)
    ⟨initAsgn (parse_form_table formRows cogRows) m, []⟩
    (easy_langs_nodup formRows cogRows m)
    (by
      intro l' hl'
      have hl'lang := (mem_easy_langs.mp hl').1
      rw [dictGet?_initAsgn, if_pos hl'lang]
      rw [← easy_candClasses_singleton formRows cogRows hl'])
  refine ⟨(candClasses (parse_form_table formRows cogRows) m l).headD "?",
    easy_candClasses_singleton formRows cogRows hl, e1 l hl,
    (e3 _).mpr (Or.inr ⟨l, hl, rfl⟩), ?_⟩
  intro hnone hq
  unfold candClasses
  rw [hnone, hq]
  rfl

/-- C3 (counterexample): with candidate forms `[f0 (no cognate record),
f1 → A]`, minimize mode assigns the real class `A` to the only (hard)
language, and the form-resolution scan evaluates `cogmap[f0]` and raises
`KeyError` — refuting "the form-resolution step never raises". -/
theorem C3_counterexample :
    kill_minimum_cognates pickHead [⟨"f0", "l1", "m1"⟩, ⟨"f1", "l1", "m1"⟩]
      [⟨"f1", "A"⟩] = .error (.keyError "f0") := rfl

/-- C3 (amended): the form-resolution scan for an assigned real class is
total exactly on candidate lists whose forms all carry a cognate
assignment: it then equals Python's first-match search (the first
candidate whose class equals the assigned class) and raises nothing;
a candidate absent from the cognate map makes `cogmap[f]` raise
`KeyError`. -/
theorem C3_resolution_first_match (cogmap : List (String × String)) (c : String)
    (fs : List String)
    (hall : ∀ f ∈ fs, (dictGet? cogmap f).isSome = true) :
    findSurvivor cogmap (.cls c) fs =
      .ok (fs.find? (fun f => dictGet? cogmap f == some c)) ∧
    ∀ e, findSurvivor cogmap (.cls c) fs ≠ .error e := by
  induction fs with
  | nil => exact ⟨rfl, fun e h => by simp [findSurvivor] at h⟩
  | cons f rest ih =>
      obtain ⟨c', hc'⟩ := Option.isSome_iff_exists.mp (hall f (List.mem_cons_self _ _))
      obtain ⟨ih1, ih2⟩ := ih (fun g hg => hall g (List.mem_cons_of_mem _ hg))
      have hcons : findSurvivor cogmap (.cls c) (f :: rest) =
          match dictGet? cogmap f with
          | none => .error (.keyError f)
          | some c' => if CogVal.eqStr (.cls c) c' then .ok (some f)
              else findSurvivor cogmap (.cls c) rest := rfl
      have heq : findSurvivor cogmap (.cls c) (f :: rest) =
          if c = c' then .ok (some f) else findSurvivor cogmap (.cls c) rest := by
        rw [hcons, hc']
        dsimp only
        by_cases hcc : c = c'
        · rw [if_pos (by simp [CogVal.eqStr, hcc]), if_pos hcc]
        · rw [if_neg (by simp [CogVal.eqStr, hcc]), if_neg hcc]
      constructor
      · rw [heq]
        by_cases hcc : c = c'
        · rw [if_pos hcc]
          have hp : (fun f => dictGet? cogmap f == some c) f = true := by
            simp [hc', hcc]
          rw [@List.find?_cons_of_pos _ (fun f => dictGet? cogmap f == some c) f rest hp]
        · rw [if_neg hcc]
          have hp : ¬ (fun f => dictGet? cogmap f == some c) f = true := by
            simp [hc']
            exact fun hh => hcc hh.symm
          rw [@List.find?_cons_of_neg _ (fun f => dictGet? cogmap f == some c) f rest hp]
          exact ih1
      · intro e
        rw [heq]
        by_cases hcc : c = c'
        · rw [if_pos hcc]
          simp
        · rw [if_neg hcc]
          exact ih2 e

set_option maxRecDepth 8000 in
/-- C5 (counterexample): two languages for one meaning — l1 with
candidates of classes A,D,D,D and l2 with classes A,A.  Minimize keeps
f2 (class D) and f5 (class A): two distinct classes; maximize keeps f1
and f5: one distinct class (A).  No random path is taken — the head and
last oracles produce identical survivor sets — yet 2 > 1. -/
theorem C5_counterexample :
    kill_minimax_cognates pickHead
      [⟨"f1", "l1", "m1"⟩, ⟨"f2", "l1", "m1"⟩, ⟨"f3", "l1", "m1"⟩, ⟨"f4", "l1", "m1"⟩,
       ⟨"f5", "l2", "m1"⟩, ⟨"f6", "l2", "m1"⟩]
      [⟨"f1", "A"⟩, ⟨"f2", "D"⟩, ⟨"f3", "D"⟩, ⟨"f4", "D"⟩, ⟨"f5", "A"⟩, ⟨"f6", "A"⟩]
      .min = .ok ["f2", "f5"] ∧
    kill_minimax_cognates pickHead
      [⟨"f1", "l1", "m1"⟩, ⟨"f2", "l1", "m1"⟩, ⟨"f3", "l1", "m1"⟩, ⟨"f4", "l1", "m1"⟩,
       ⟨"f5", "l2", "m1"⟩, ⟨"f6", "l2", "m1"⟩]
      [⟨"f1", "A"⟩, ⟨"f2", "D"⟩, ⟨"f3", "D"⟩, ⟨"f4", "D"⟩, ⟨"f5", "A"⟩, ⟨"f6", "A"⟩]
      .max = .ok ["f1", "f5"] ∧
    kill_minimax_cognates pickLast
      [⟨"f1", "l1", "m1"⟩, ⟨"f2", "l1", "m1"⟩, ⟨"f3", "l1", "m1"⟩, ⟨"f4", "l1", "m1"⟩,
       ⟨"f5", "l2", "m1"⟩, ⟨"f6", "l2", "m1"⟩]
      [⟨"f1", "A"⟩, ⟨"f2", "D"⟩, ⟨"f3", "D"⟩, ⟨"f4", "D"⟩, ⟨"f5", "A"⟩, ⟨"f6", "A"⟩]
      .min = .ok ["f2", "f5"] ∧
    kill_minimax_cognates pickLast
      [⟨"f1", "l1", "m1"⟩, ⟨"f2", "l1", "m1"⟩, ⟨"f3", "l1", "m1"⟩, ⟨"f4", "l1", "m1"⟩,
       ⟨"f5", "l2", "m1"⟩, ⟨"f6", "l2", "m1"⟩]
      [⟨"f1", "A"⟩, ⟨"f2", "D"⟩, ⟨"f3", "D"⟩, ⟨"f4", "D"⟩, ⟨"f5", "A"⟩, ⟨"f6", "A"⟩]
      .max = .ok ["f1", "f5"] ∧
    (survivorClasses (parse_form_table
      [⟨"f1", "l1", "m1"⟩, ⟨"f2", "l1", "m1"⟩, ⟨"f3", "l1", "m1"⟩, ⟨"f4", "l1", "m1"⟩,
       ⟨"f5", "l2", "m1"⟩, ⟨"f6", "l2", "m1"⟩]
      [⟨"f1", "A"⟩, ⟨"f2", "D"⟩, ⟨"f3", "D"⟩, ⟨"f4", "D"⟩, ⟨"f5", "A"⟩, ⟨"f6", "A"⟩]).cognate_map
      ["f2", "f5"]).length = 2 ∧
    (survivorClasses (parse_form_table
      [⟨"f1", "l1", "m1"⟩, ⟨"f2", "l1", "m1"⟩, ⟨"f3", "l1", "m1"⟩, ⟨"f4", "l1", "m1"⟩,
       ⟨"f5", "l2", "m1"⟩, ⟨"f6", "l2", "m1"⟩]
      [⟨"f1", "A"⟩, ⟨"f2", "D"⟩, ⟨"f3", "D"⟩, ⟨"f4", "D"⟩, ⟨"f5", "A"⟩, ⟨"f6", "A"⟩]).cognate_map
      ["f1", "f5"]).length = 1 := by
  refine ⟨?_, ?_, ?_, ?_, ?_, ?_⟩ <;> decide

/-! ### Helpers for the restricted minimize-monotonicity theorem -/

theorem findSurvivor_no_error {cogmap : List (String × String)} {v : CogVal}
    {fs : List String} (hall : ∀ f ∈ fs, (dictGet? cogmap f).isSome = true) :
    ∀ e, findSurvivor cogmap v fs ≠ .error e := by
  induction fs with
  | nil => intro e h; simp [findSurvivor] at h
  | cons f rest ih =>
      intro e h
      obtain ⟨c', hc'⟩ := Option.isSome_iff_exists.mp (hall f (List.mem_cons_self _ _))
      have hcons : findSurvivor cogmap v (f :: rest) =
          match dictGet? cogmap f with
          | none => .error (.keyError f)
          | some c' => if v.eqStr c' then .ok (some f)
              else findSurvivor cogmap v rest := rfl
      rw [hcons, hc'] at h
      dsimp only at h
      by_cases he : v.eqStr c'
      · rw [if_pos he] at h
        exact absurd h (by simp)
      · rw [if_neg he] at h
        exact ih (fun g hg => hall g (List.mem_cons_of_mem _ hg)) e h

theorem scanPick_none {mode : Mode} {att : List String} :
    ∀ {L : List (Nat × String)}, scanPick mode att L = none →
      ∀ p ∈ L, prefHolds mode att p.2 = false := by
  intro L
  induction L with
  | nil => intro _ p hp; exact absurd hp (List.not_mem_nil p)
  | cons o rest ih =>
      intro h p hp
      obtain ⟨n, c⟩ := o
      unfold scanPick at h
      by_cases hpref : prefHolds mode att c
      · rw [if_pos hpref] at h
        exact absurd h (by simp)
      · rw [if_neg hpref] at h
        rcases List.mem_cons.mp hp with rfl | hpr
        · simpa using hpref
        · exact ih h p hpr

theorem hardChoice_mem_of_ne_nil (mode : Mode) (att : List String)
    {sorted : List (Nat × String)} (h : sorted ≠ []) :
    hardChoice mode att sorted ∈ sorted.map Prod.snd := by
  unfold hardChoice
  cases hs : scanPick mode att sorted with
  | some c => exact scanPick_mem hs
  | none =>
      cases sorted with
      | nil => exact absurd rfl h
      | cons o rest => simp

theorem chosenForm_class {pick : List String → String} {pd : ParsedData} {m : String}
    {asgn : List (String × CogVal)} {l f c : String}
    (hentry : dictGet? asgn l = some (.cls c)) (hq : c ≠ "?")
    (h : chosenForm pick pd m asgn l = some f) :
    dictGet? pd.cognate_map f = some c := by
  unfold chosenForm at h
  cases hforms : dictGet? pd.forms (l, m) with
  | none => rw [hforms] at h; exact absurd h (by simp)
  | some fs =>
      rw [hforms] at h
      dsimp only at h
      rw [hentry] at h
      simp only [Option.getD_some] at h
      rw [if_neg (by simp [CogVal.eqStr, hq])] at h
      cases hfind : findSurvivor pd.cognate_map (.cls c) fs with
      | error e => rw [hfind] at h; exact absurd h (by simp)
      | ok r =>
          rw [hfind] at h
          cases r with
          | none => exact absurd h (by simp)
          | some f' =>
              dsimp only at h
              injection h with h
              subst h
              obtain ⟨-, c', hc', he⟩ := findSurvivor_ok_some_mem hfind
              have : c = c' := by simpa [CogVal.eqStr] using he
              rw [this]
              exact hc'

theorem nodup_alleq_nil_or_singleton {α : Type} {L : List α} (hnd : L.Nodup)
    (h : ∀ a b, a ∈ L → b ∈ L → a = b) : L = [] ∨ ∃ x, L = [x] := by
  cases L with
  | nil => exact Or.inl rfl
  | cons x t =>
      cases t with
      | nil => exact Or.inr ⟨x, rfl⟩
      | cons y u =>
          have hxy : x = y := h x y (by simp) (by simp)
          rw [hxy] at hnd
          simp at hnd

theorem scanPick_some_pref {mode : Mode} {att : List String} :
    ∀ {L : List (Nat × String)} {c : String}, scanPick mode att L = some c →
      prefHolds mode att c = true := by
  intro L
  induction L with
  | nil => intro c h; simp [scanPick] at h
  | cons o rest ih =>
      intro c h
      obtain ⟨n, c'⟩ := o
      unfold scanPick at h
      by_cases hp : prefHolds mode att c'
      · rw [if_pos hp] at h
        injection h with h
        subst h
        exact hp
      · rw [if_neg hp] at h
        exact ih h

theorem scanPick_cons_pos {mode : Mode} {att : List String} {p : Nat × String}
    {rest : List (Nat × String)} (hp : prefHolds mode att p.2 = true) :
    scanPick mode att (p :: rest) = some p.2 := by
  obtain ⟨n, c⟩ := p
  have hp' : prefHolds mode att c = true := hp
  unfold scanPick
  rw [if_pos hp']

/-- The hard-assignment step writes the hard choice for the processed
language and leaves every other key of the dictionary untouched. -/
theorem hardStep_assigned (counts : List (String × Nat)) (mode : Mode) (st : MState)
    (h : String) (cs : List String)
    (hentry : dictGet? st.asgn h = some (.lst cs)) :
    dictGet? (hardStep counts mode st h).asgn h =
      some (.cls (hardChoice mode st.attested
        (sortOptions mode (cs.map fun c => (countOf counts c, c))))) ∧
    (∀ x, x ≠ h → dictGet? (hardStep counts mode st h).asgn x = dictGet? st.asgn x) := by
  constructor
  · unfold hardStep
    dsimp only
    rw [hentry]
    dsimp only
    rw [dictGet?_dictSet_self]
  · intro x hx
    unfold hardStep
    dsimp only
    rw [dictGet?_dictSet_ne _ _ hx]

/-- An easy language with a non-empty candidate list has exactly one
candidate class. -/
theorem easy_candClasses_head {pd : ParsedData} {m l : String}
    (hne : candClasses pd m l ≠ []) (hl : l ∈ easy_langs pd m) :
    candClasses pd m l = [(candClasses pd m l).headD "?"] := by
  obtain ⟨-, hlen⟩ := mem_easy_langs.mp hl
  cases hcc : candClasses pd m l with
  | nil => exact absurd hcc hne
  | cons a t =>
      cases t with
      | nil => rfl
      | cons b u =>
          rw [hcc] at hlen
          simp only [List.length_cons] at hlen
          omega

/-- Full description of the state after the easy pass: every easy language
is assigned its single candidate class, other keys keep their initial
value, and the attested set is exactly the easy languages' classes. -/
theorem mState1_spec (pd : ParsedData) (m : String) (hnodup : pd.languages.Nodup)
    (hccne : ∀ l ∈ easy_langs pd m, candClasses pd m l ≠ []) :
    (∀ l ∈ easy_langs pd m, dictGet? (mState1 pd m).asgn l =
      some (.cls ((candClasses pd m l).headD "?"))) ∧
    (∀ x, x ∉ easy_langs pd m → dictGet? (mState1 pd m).asgn x =
      dictGet? (initAsgn pd m) x) ∧
    (∀ c, c ∈ (mState1 pd m).attested ↔
      ∃ l ∈ easy_langs pd m, (candClasses pd m l).headD "?" = c) := by
  obtain ⟨e1, e2, e3⟩ := easy_foldl_spec (fun l => (candClasses pd m l).headD "?")
    (easy_langs pd m) ⟨initAsgn pd m, []⟩ (hnodup.filter _)
    (by
      intro l hl
      show dictGet? (initAsgn pd m) l = _
      rw [dictGet?_initAsgn, if_pos (mem_easy_langs.mp hl).1,
        ← easy_candClasses_head (hccne l hl) hl])
  refine ⟨e1, e2, ?_⟩
  intro c
  unfold mState1
  rw [e3 c]
  simp

theorem mState2_of_hard_nil (pd : ParsedData) (mode : Mode) (m : String)
    (h : hard_langs pd m = []) : mState2 pd mode m = mState1 pd m := by
  rw [mState2_eq, h]
  rfl

theorem mState2_of_hard_single (pd : ParsedData) (mode : Mode) (m : String) {h : String}
    (hh : hard_langs pd m = [h]) :
    mState2 pd mode m = hardStep (classCounts pd m) mode (mState1 pd m) h := by
  rw [mState2_eq, hh]
  rfl

theorem assignedClass_entry {pd : ParsedData} {mode : Mode} {m l c : String}
    (h : dictGet? (mState2 pd mode m).asgn l = some (.cls c)) :
    assignedClass pd mode m l = c := by
  unfold assignedClass
  rw [h]

/-- When at most one language is hard, every language ends the assignment
passes holding a single assigned class drawn from its own candidate
list. -/
theorem assigned_spec (pd : ParsedData) (m : String) (hnodup : pd.languages.Nodup)
    (hccne : ∀ l ∈ pd.languages, candClasses pd m l ≠ [])
    (hhard : (hard_langs pd m).length ≤ 1) (mode : Mode) :
    ∀ l ∈ pd.languages,
      dictGet? (mState2 pd mode m).asgn l =
        some (.cls (assignedClass pd mode m l)) ∧
      assignedClass pd mode m l ∈ candClasses pd m l := by
  have hccne' : ∀ l ∈ easy_langs pd m, candClasses pd m l ≠ [] :=
    fun l hl => hccne l (mem_easy_langs.mp hl).1
  obtain ⟨e1, e2, e3⟩ := mState1_spec pd m hnodup hccne'
  intro l hl
  cases hhl : hard_langs pd m with
  | nil =>
      have hle : l ∈ easy_langs pd m := by
        rcases mem_easy_or_hard pd m hl with he | hd
        · exact he
        · rw [hhl] at hd
          exact absurd hd (List.not_mem_nil l)
      have hent : dictGet? (mState2 pd mode m).asgn l =
          some (.cls ((candClasses pd m l).headD "?")) := by
        rw [mState2_of_hard_nil pd mode m hhl]
        exact e1 l hle
      refine ⟨?_, ?_⟩
      · rw [assignedClass_entry hent]
        exact hent
      · rw [assignedClass_entry hent]
        have hcc := easy_candClasses_head (hccne' l hle) hle
        rw [hcc]
        simp
  | cons h t =>
      have ht : t = [] := by
        rw [hhl] at hhard
        simp only [List.length_cons] at hhard
        exact List.length_eq_zero.mp (by omega)
      subst ht
      have hms := mState2_of_hard_single pd mode m hhl
      have hmemh : h ∈ hard_langs pd m := by
        rw [hhl]
        exact List.mem_cons_self _ _
      have hlangh : h ∈ pd.languages := (mem_hard_langs.mp hmemh).1
      have hnotEasy : h ∉ easy_langs pd m := (mem_hard_langs.mp hmemh).2
      have hentryh : dictGet? (mState1 pd m).asgn h =
          some (.lst (candClasses pd m h)) := by
        rw [e2 h hnotEasy, dictGet?_initAsgn, if_pos hlangh]
      by_cases hlh : l = h
      · subst hlh
        obtain ⟨ha1, -⟩ := hardStep_assigned (classCounts pd m) mode (mState1 pd m) l
          (candClasses pd m l) hentryh
        have hent : dictGet? (mState2 pd mode m).asgn l = some (.cls (hardChoice mode
            (mState1 pd m).attested (sortOptions mode ((candClasses pd m l).map
              fun c => (countOf (classCounts pd m) c, c))))) := by
          rw [hms]
          exact ha1
        refine ⟨?_, ?_⟩
        · rw [assignedClass_entry hent]
          exact hent
        · rw [assignedClass_entry hent]
          have hsne : sortOptions mode ((candClasses pd m l).map
              fun c => (countOf (classCounts pd m) c, c)) ≠ [] := by
            intro hnil
            have hperm := sortOptions_perm mode ((candClasses pd m l).map
              fun c => (countOf (classCounts pd m) c, c))
            rw [hnil] at hperm
            exact hccne l hl (List.map_eq_nil_iff.mp hperm.symm.eq_nil)
          have hmem := hardChoice_mem_of_ne_nil mode (mState1 pd m).attested hsne
          have hmem2 := mem_snd_sortOptions hmem
          simpa using hmem2
      · have hle : l ∈ easy_langs pd m := by
          rcases mem_easy_or_hard pd m hl with he | hd
          · exact he
          · rw [hhl] at hd
            rcases List.mem_cons.mp hd with rfl | hf
            · exact absurd rfl hlh
            · exact absurd hf (List.not_mem_nil l)
        obtain ⟨-, ha2⟩ := hardStep_assigned (classCounts pd m) mode (mState1 pd m) h
          (candClasses pd m h) hentryh
        have hent : dictGet? (mState2 pd mode m).asgn l =
            some (.cls ((candClasses pd m l).headD "?")) := by
          rw [hms, ha2 l hlh]
          exact e1 l hle
        refine ⟨?_, ?_⟩
        · rw [assignedClass_entry hent]
          exact hent
        · rw [assignedClass_entry hent]
          have hcc := easy_candClasses_head (hccne' l hle) hle
          rw [hcc]
          simp

/-- The combinatorial heart of the restricted minimize-monotonicity
property: with at most one hard language, the minimize-mode assignment
produces at most as many distinct classes as the maximize-mode one. -/
theorem assigned_card_le (pd : ParsedData) (m : String) (hnodup : pd.languages.Nodup)
    (hccne : ∀ l ∈ pd.languages, candClasses pd m l ≠ [])
    (hhard : (hard_langs pd m).length ≤ 1) :
    (pd.languages.map (assignedClass pd .min m)).toFinset.card ≤
      (pd.languages.map (assignedClass pd .max m)).toFinset.card := by
  have hccne' : ∀ l ∈ easy_langs pd m, candClasses pd m l ≠ [] :=
    fun l hl => hccne l (mem_easy_langs.mp hl).1
  obtain ⟨e1, e2, e3⟩ := mState1_spec pd m hnodup hccne'
  cases hhl : hard_langs pd m with
  | nil =>
      have hAeq : pd.languages.map (assignedClass pd .min m) =
          pd.languages.map (assignedClass pd .max m) := by
        apply List.map_congr_left
        intro l hl
        unfold assignedClass
        rw [mState2_of_hard_nil pd .min m hhl, mState2_of_hard_nil pd .max m hhl]
      rw [hAeq]
  | cons h t =>
      have ht : t = [] := by
        rw [hhl] at hhard
        simp only [List.length_cons] at hhard
        exact List.length_eq_zero.mp (by omega)
      subst ht
      have hmemh : h ∈ hard_langs pd m := by
        rw [hhl]
        exact List.mem_cons_self _ _
      have hlangh : h ∈ pd.languages := (mem_hard_langs.mp hmemh).1
      have hnotEasy : h ∉ easy_langs pd m := (mem_hard_langs.mp hmemh).2
      have hentryh : dictGet? (mState1 pd m).asgn h =
          some (.lst (candClasses pd m h)) := by
        rw [e2 h hnotEasy, dictGet?_initAsgn, if_pos hlangh]
      have hasgn_easy : ∀ mode : Mode, ∀ l ∈ easy_langs pd m,
          assignedClass pd mode m l = (candClasses pd m l).headD "?" := by
        intro mode l hl
        have hlh : l ≠ h := by
          rintro rfl
          exact hnotEasy hl
        obtain ⟨-, ha2⟩ := hardStep_assigned (classCounts pd m) mode (mState1 pd m) h
          (candClasses pd m h) hentryh
        apply assignedClass_entry
        rw [mState2_of_hard_single pd mode m hhl, ha2 l hlh]
        exact e1 l hl
      have hasgn_hard : ∀ mode : Mode, assignedClass pd mode m h =
          hardChoice mode (mState1 pd m).attested (sortOptions mode
            ((candClasses pd m h).map fun c => (countOf (classCounts pd m) c, c))) := by
        intro mode
        obtain ⟨ha1, -⟩ := hardStep_assigned (classCounts pd m) mode (mState1 pd m) h
          (candClasses pd m h) hentryh
        apply assignedClass_entry
        rw [mState2_of_hard_single pd mode m hhl]
        exact ha1
      have hA : ∀ mode : Mode, (pd.languages.map (assignedClass pd mode m)).toFinset =
          insert (assignedClass pd mode m h)
            ((easy_langs pd m).map fun l => (candClasses pd m l).headD "?").toFinset := by
        intro mode
        apply Finset.ext
        intro x
        simp only [List.mem_toFinset, List.mem_map, Finset.mem_insert]
        constructor
        · rintro ⟨l, hl, rfl⟩
          rcases mem_easy_or_hard pd m hl with he | hd
          · exact Or.inr ⟨l, he, (hasgn_easy mode l he).symm⟩
          · rw [hhl] at hd
            rcases List.mem_cons.mp hd with rfl | hf
            · exact Or.inl rfl
            · exact absurd hf (List.not_mem_nil l)
        · rintro (rfl | ⟨l, hl, rfl⟩)
          · exact ⟨h, hlangh, rfl⟩
          · exact ⟨l, (mem_easy_langs.mp hl).1, hasgn_easy mode l hl⟩
      have hatt : ∀ c, c ∈ (mState1 pd m).attested ↔
          c ∈ ((easy_langs pd m).map fun l => (candClasses pd m l).headD "?").toFinset := by
        intro c
        rw [e3 c]
        simp
      by_cases hmin : assignedClass pd .min m h ∈
          ((easy_langs pd m).map fun l => (candClasses pd m l).headD "?").toFinset
      · rw [hA .min, hA .max, Finset.insert_eq_self.mpr hmin]
        exact Finset.card_le_card (Finset.subset_insert _ _)
      · have hscan : scanPick .min (mState1 pd m).attested (sortOptions .min
            ((candClasses pd m h).map fun c => (countOf (classCounts pd m) c, c))) =
            none := by
          cases hs : scanPick .min (mState1 pd m).attested (sortOptions .min
              ((candClasses pd m h).map fun c => (countOf (classCounts pd m) c, c))) with
          | none => rfl
          | some c =>
              exfalso
              apply hmin
              have hpref := scanPick_some_pref hs
              have hcatt : c ∈ (mState1 pd m).attested := by
                simpa [prefHolds] using hpref
              have hceq : assignedClass pd .min m h = c := by
                rw [hasgn_hard .min]
                unfold hardChoice
                rw [hs]
              rw [hceq]
              exact (hatt c).mp hcatt
        have hnoatt : ∀ c ∈ candClasses pd m h, c ∉ (mState1 pd m).attested := by
          intro c hc hcatt
          have hp : ((countOf (classCounts pd m) c, c) : Nat × String) ∈ sortOptions .min
              ((candClasses pd m h).map fun c => (countOf (classCounts pd m) c, c)) :=
            (sortOptions_perm _ _).mem_iff.mpr (List.mem_map_of_mem _ hc)
          have hfalse := scanPick_none hscan _ hp
          simp [prefHolds, hcatt] at hfalse
        have hsne : sortOptions .max ((candClasses pd m h).map
            fun c => (countOf (classCounts pd m) c, c)) ≠ [] := by
          intro hnil
          have hperm := sortOptions_perm .max ((candClasses pd m h).map
            fun c => (countOf (classCounts pd m) c, c))
          rw [hnil] at hperm
          exact hccne h hlangh (List.map_eq_nil_iff.mp hperm.symm.eq_nil)
        cases hsrt : sortOptions .max ((candClasses pd m h).map
            fun c => (countOf (classCounts pd m) c, c)) with
        | nil => exact absurd hsrt hsne
        | cons p rest =>
            have hp2cc : p.2 ∈ candClasses pd m h := by
              have hpm : p ∈ sortOptions .max ((candClasses pd m h).map
                  fun c => (countOf (classCounts pd m) c, c)) := by
                rw [hsrt]
                exact List.mem_cons_self _ _
              have hmem2 := mem_snd_sortOptions (List.mem_map_of_mem Prod.snd hpm)
              simpa using hmem2
            have hp2att : p.2 ∉ (mState1 pd m).attested := hnoatt p.2 hp2cc
            have hpref : prefHolds .max (mState1 pd m).attested p.2 = true := by
              simpa [prefHolds] using hp2att
            have hamax : assignedClass pd .max m h = p.2 := by
              rw [hasgn_hard .max]
              unfold hardChoice
              rw [hsrt, scanPick_cons_pos hpref]
            have hamax_f : assignedClass pd .max m h ∉
                ((easy_langs pd m).map fun l => (candClasses pd m l).headD "?").toFinset := by
              rw [hamax]
              intro hmem2
              exact hp2att ((hatt p.2).mpr hmem2)
            rw [hA .min, hA .max, Finset.card_insert_of_not_mem hmin,
              Finset.card_insert_of_not_mem hamax_f]

/-- C5 (amended): minimize monotonicity holds on the deterministic
fragment — for a meaning at which every language has candidate forms, all
candidate forms carry real cognate classes (no `"?"` sentinel), and at
most one language is hard, both modes process the meaning without error
and the number of distinct cognate classes attested among the
minimize-mode survivors is at most the number attested among the
maximize-mode survivors.  (The unrestricted claim is refuted by
`C5_counterexample`: with two hard languages the minimize run can attest
strictly more classes than the maximize run.) -/
theorem C5_minimize_monotone (formRows : List FormRow) (cogRows : List CogRow)
    (pick : List String → String) (m : String)
    (hforms : ∀ l ∈ (parse_form_table formRows cogRows).languages,
      (dictGet? (parse_form_table formRows cogRows).forms (l, m)).isSome = true)
    (hreal : ∀ l ∈ (parse_form_table formRows cogRows).languages,
      "?" ∉ candClasses (parse_form_table formRows cogRows) m l)
    (hhard : (hard_langs (parse_form_table formRows cogRows) m).length ≤ 1) :
    ∃ smin smax,
      processMeaning pick .min (parse_form_table formRows cogRows) [] m = .ok smin ∧
      processMeaning pick .max (parse_form_table formRows cogRows) [] m = .ok smax ∧
      (survivorClasses (parse_form_table formRows cogRows).cognate_map smin).length ≤
        (survivorClasses (parse_form_table formRows cogRows).cognate_map smax).length := by
  have hnodup := (parse_nodup formRows cogRows).1
  have hccne : ∀ l ∈ (parse_form_table formRows cogRows).languages,
      candClasses (parse_form_table formRows cogRows) m l ≠ [] :=
    fun l _ => candClasses_ne_nil formRows cogRows m l
  have hlk : ∀ l ∈ (parse_form_table formRows cogRows).languages,
      ∀ fs, dictGet? (parse_form_table formRows cogRows).forms (l, m) = some fs →
      ∀ f ∈ fs,
        (dictGet? (parse_form_table formRows cogRows).cognate_map f).isSome = true := by
    intro l hl fs hfs f hf
    cases hcf : dictGet? (parse_form_table formRows cogRows).cognate_map f with
    | some c => rfl
    | none =>
        exfalso
        apply hreal l hl
        show "?" ∈ candClasses (parse_form_table formRows cogRows) m l
        unfold candClasses
        rw [hfs]
        dsimp only
        exact List.mem_map.mpr ⟨f, hf, by rw [hcf]; rfl⟩
  have hassigned := fun mode => assigned_spec (parse_form_table formRows cogRows) m
    hnodup hccne hhard mode
  have hq : ∀ (mode : Mode), ∀ l ∈ (parse_form_table formRows cogRows).languages,
      assignedClass (parse_form_table formRows cogRows) mode m l ≠ "?" := by
    intro mode l hl heq
    exact hreal l hl (heq ▸ (hassigned mode l hl).2)
  have hrep : ∀ (mode : Mode), ∀ l ∈ (parse_form_table formRows cogRows).languages,
      ∃ fs, dictGet? (parse_form_table formRows cogRows).forms (l, m) = some fs ∧
        ∃ f0 ∈ fs, dictGet? (parse_form_table formRows cogRows).cognate_map f0 =
          some (assignedClass (parse_form_table formRows cogRows) mode m l) := by
    intro mode l hl
    obtain ⟨-, hmem⟩ := hassigned mode l hl
    obtain ⟨fs, hfs⟩ := Option.isSome_iff_exists.mp (hforms l hl)
    refine ⟨fs, hfs, ?_⟩
    have hcc : candClasses (parse_form_table formRows cogRows) m l =
        fs.map (fun f =>
          (dictGet? (parse_form_table formRows cogRows).cognate_map f).getD "?") := by
      unfold candClasses
      rw [hfs]
    rw [hcc] at hmem
    obtain ⟨f0, hf0, heq⟩ := List.mem_map.mp hmem
    obtain ⟨c0, hc0⟩ := Option.isSome_iff_exists.mp (hlk l hl fs hfs f0 hf0)
    rw [hc0] at heq
    have hc0eq : c0 = assignedClass (parse_form_table formRows cogRows) mode m l := by
      simpa using heq
    exact ⟨f0, hf0, by rw [hc0, hc0eq]⟩
  have hchosen : ∀ (mode : Mode), ∀ l ∈ (parse_form_table formRows cogRows).languages,
      ∃ f, chosenForm pick (parse_form_table formRows cogRows) m
          (mState2 (parse_form_table formRows cogRows) mode m).asgn l = some f ∧
        dictGet? (parse_form_table formRows cogRows).cognate_map f =
          some (assignedClass (parse_form_table formRows cogRows) mode m l) := by
    intro mode l hl
    obtain ⟨hent, -⟩ := hassigned mode l hl
    obtain ⟨fs, hfs, f0, hf0, hc0⟩ := hrep mode l hl
    have hqne := hq mode l hl
    unfold chosenForm
    rw [hfs]
    dsimp only
    rw [hent]
    simp only [Option.getD_some]
    rw [if_neg (by simp [CogVal.eqStr, hqne])]
    cases hfind : findSurvivor (parse_form_table formRows cogRows).cognate_map
        (.cls (assignedClass (parse_form_table formRows cogRows) mode m l)) fs with
    | error e => exact absurd hfind (findSurvivor_no_error (hlk l hl fs hfs) e)
    | ok r =>
        cases r with
        | none => exact absurd hfind (findSurvivor_ne_ok_none hf0 hc0)
        | some f =>
            refine ⟨f, rfl, ?_⟩
            obtain ⟨-, c', hc', he⟩ := findSurvivor_ok_some_mem hfind
            have hacls : assignedClass (parse_form_table formRows cogRows) mode m l =
                c' := by
              simpa [CogVal.eqStr] using he
            rw [hacls]
            exact hc'
  have hfree : ∀ (mode : Mode), ∀ l ∈ (parse_form_table formRows cogRows).languages,
      stepErrFree (parse_form_table formRows cogRows) m
        (mState2 (parse_form_table formRows cogRows) mode m).asgn l := by
    intro mode l hl fs hfs
    exact Or.inr (findSurvivor_no_error (hlk l hl fs hfs))
  obtain ⟨smin, hsmin⟩ := resolve_foldl_ok_of_free pick (parse_form_table formRows cogRows)
    m (mState2 (parse_form_table formRows cogRows) .min m).asgn
    (parse_form_table formRows cogRows).languages [] (hfree .min)
  obtain ⟨smax, hsmax⟩ := resolve_foldl_ok_of_free pick (parse_form_table formRows cogRows)
    m (mState2 (parse_form_table formRows cogRows) .max m).asgn
    (parse_form_table formRows cogRows).languages [] (hfree .max)
  obtain ⟨memmin, -⟩ := resolve_foldl_ok pick (parse_form_table formRows cogRows) m
    (mState2 (parse_form_table formRows cogRows) .min m).asgn
    (parse_form_table formRows cogRows).languages [] smin hsmin
  obtain ⟨memmax, -⟩ := resolve_foldl_ok pick (parse_form_table formRows cogRows) m
    (mState2 (parse_form_table formRows cogRows) .max m).asgn
    (parse_form_table formRows cogRows).languages [] smax hsmax
  have hbridge : ∀ (mode : Mode) (s : List String),
      (∀ f, f ∈ s ↔ f ∈ ([] : List String) ∨
        ∃ l ∈ (parse_form_table formRows cogRows).languages,
          chosenForm pick (parse_form_table formRows cogRows) m
            (mState2 (parse_form_table formRows cogRows) mode m).asgn l = some f) →
      (s.filterMap
        (fun f => dictGet? (parse_form_table formRows cogRows).cognate_map f)).toFinset =
        ((parse_form_table formRows cogRows).languages.map
          (assignedClass (parse_form_table formRows cogRows) mode m)).toFinset := by
    intro mode s hs
    apply Finset.ext
    intro x
    simp only [List.mem_toFinset, List.mem_filterMap, List.mem_map]
    constructor
    · rintro ⟨f, hf, hlkf⟩
      rcases (hs f).mp hf with hnil | ⟨l, hl, hcf⟩
      · exact absurd hnil (List.not_mem_nil f)
      · obtain ⟨hent, -⟩ := hassigned mode l hl
        have hcl := chosenForm_class hent (hq mode l hl) hcf
        rw [hcl] at hlkf
        injection hlkf with hlkf
        exact ⟨l, hl, hlkf⟩
    · rintro ⟨l, hl, rfl⟩
      obtain ⟨f, hcf, hlkf⟩ := hchosen mode l hl
      exact ⟨f, (hs f).mpr (Or.inr ⟨l, hl, hcf⟩), hlkf⟩
  refine ⟨smin, smax, hsmin, hsmax, ?_⟩
  have hmin := hbridge .min smin memmin
  have hmax := hbridge .max smax memmax
  unfold survivorClasses
  rw [← List.card_toFinset, ← List.card_toFinset, hmin, hmax]
  exact assigned_card_le (parse_form_table formRows cogRows) m hnodup hccne hhard

theorem pickHead_valid : ∀ xs : List String, xs ≠ [] → pickHead xs ∈ xs := by
  intro xs h
  cases xs with
  | nil => exact absurd rfl h
  | cons a t => exact List.mem_cons_self _ _

theorem C1_coverage_witness :
    ((∀ xs : List String, xs ≠ [] → pickHead xs ∈ xs) ∧
     (∀ kv1 ∈ (parse_form_table [⟨"f1", "l1", "m1"⟩, ⟨"f2", "l1", "m1"⟩]
        [⟨"f1", "A"⟩, ⟨"f2", "A"⟩]).forms,
      ∀ kv2 ∈ (parse_form_table [⟨"f1", "l1", "m1"⟩, ⟨"f2", "l1", "m1"⟩]
        [⟨"f1", "A"⟩, ⟨"f2", "A"⟩]).forms,
      kv1.1 ≠ kv2.1 → ∀ f ∈ kv1.2, f ∉ kv2.2)) ∧
    ((∀ l m fs, dictGet? (parse_form_table [⟨"f1", "l1", "m1"⟩, ⟨"f2", "l1", "m1"⟩]
        [⟨"f1", "A"⟩, ⟨"f2", "A"⟩]).forms (l, m) = some fs →
      (fs.dedup.filter (fun f => decide (f ∈ kill_random pickHead
        [⟨"f1", "l1", "m1"⟩, ⟨"f2", "l1", "m1"⟩]
        [⟨"f1", "A"⟩, ⟨"f2", "A"⟩]))).length = 1) ∧
     (∀ (mode : Mode) (surv : List String),
      kill_minimax_cognates pickHead [⟨"f1", "l1", "m1"⟩, ⟨"f2", "l1", "m1"⟩]
        [⟨"f1", "A"⟩, ⟨"f2", "A"⟩] mode = .ok surv →
      ∀ l m fs, dictGet? (parse_form_table [⟨"f1", "l1", "m1"⟩, ⟨"f2", "l1", "m1"⟩]
        [⟨"f1", "A"⟩, ⟨"f2", "A"⟩]).forms (l, m) = some fs →
      (fs.dedup.filter (fun f => decide (f ∈ surv))).length = 1)) :=
  ⟨⟨pickHead_valid, by decide⟩,
    C1_coverage pickHead [⟨"f1", "l1", "m1"⟩, ⟨"f2", "l1", "m1"⟩]
      [⟨"f1", "A"⟩, ⟨"f2", "A"⟩] pickHead_valid (by decide)⟩

theorem C2_easy_assignment_witness :
    "l1" ∈ easy_langs (parse_form_table [⟨"f1", "l1", "m1"⟩] [⟨"f1", "A"⟩]) "m1" ∧
    (∃ c, candClasses (parse_form_table [⟨"f1", "l1", "m1"⟩] [⟨"f1", "A"⟩]) "m1" "l1" =
        [c] ∧
      dictGet? ((easy_langs (parse_form_table [⟨"f1", "l1", "m1"⟩] [⟨"f1", "A"⟩])
        "m1").foldl easyStep
        ⟨initAsgn (parse_form_table [⟨"f1", "l1", "m1"⟩] [⟨"f1", "A"⟩]) "m1", []⟩).asgn
        "l1" = some (.cls c) ∧
      c ∈ ((easy_langs (parse_form_table [⟨"f1", "l1", "m1"⟩] [⟨"f1", "A"⟩])
        "m1").foldl easyStep
        ⟨initAsgn (parse_form_table [⟨"f1", "l1", "m1"⟩] [⟨"f1", "A"⟩]) "m1", []⟩).attested ∧
      (dictGet? (parse_form_table [⟨"f1", "l1", "m1"⟩] [⟨"f1", "A"⟩]).forms ("l1", "m1") =
          none →
        dictGet? (parse_form_table [⟨"f1", "l1", "m1"⟩] [⟨"f1", "A"⟩]).cognate_map "?" =
          none →
        c = "?")) :=
  ⟨by decide,
    C2_easy_assignment [⟨"f1", "l1", "m1"⟩] [⟨"f1", "A"⟩] "m1" "l1" (by decide)⟩

theorem C3_resolution_first_match_witness :
    (∀ f ∈ ["f1", "f2"], (dictGet? [("f1", "A"), ("f2", "B")] f).isSome = true) ∧
    (findSurvivor [("f1", "A"), ("f2", "B")] (.cls "B") ["f1", "f2"] =
      .ok (["f1", "f2"].find? (fun f => dictGet? [("f1", "A"), ("f2", "B")] f ==
        some "B")) ∧
     ∀ e, findSurvivor [("f1", "A"), ("f2", "B")] (.cls "B") ["f1", "f2"] ≠ .error e) :=
  ⟨by decide,
    C3_resolution_first_match [("f1", "A"), ("f2", "B")] "B" ["f1", "f2"] (by decide)⟩

theorem C4_hard_assignment_witness :
    dictGet? (MState.mk [("l1", CogVal.lst ["A", "B"])] []).asgn "l1" =
      some (.lst ["A", "B"]) ∧
    hardStep [("A", 2), ("B", 1)] .min (MState.mk [("l1", CogVal.lst ["A", "B"])] [])
        "l1" =
      { asgn := dictSet (MState.mk [("l1", CogVal.lst ["A", "B"])] []).asgn "l1"
          (.cls (specHardAssign .min [("A", 2), ("B", 1)]
            (MState.mk [("l1", CogVal.lst ["A", "B"])] []).attested ["A", "B"])),
        attested := setAdd (MState.mk [("l1", CogVal.lst ["A", "B"])] []).attested
          (specHardAssign .min [("A", 2), ("B", 1)]
            (MState.mk [("l1", CogVal.lst ["A", "B"])] []).attested ["A", "B"]) } :=
  ⟨by decide,
    C4_hard_assignment [("A", 2), ("B", 1)] .min
      (MState.mk [("l1", CogVal.lst ["A", "B"])] []) "l1" ["A", "B"] (by decide)⟩

theorem C9_tie_break_witness :
    ((sortOptions .max [(1, "B"), (1, "A")]).get ⟨0, by decide⟩).1 =
      ((sortOptions .max [(1, "B"), (1, "A")]).get ⟨1, by decide⟩).1 ∧
    strLe ((sortOptions .max [(1, "B"), (1, "A")]).get ⟨0, by decide⟩).2
      ((sortOptions .max [(1, "B"), (1, "A")]).get ⟨1, by decide⟩).2 = true ∧
    (sortOptions .max [(1, "B"), (1, "A")]).Perm [(1, "B"), (1, "A")] :=
  ⟨by decide,
   ((C9_tie_break .max [(1, "B"), (1, "A")]).2 0 1 (by decide) (by decide)
      (by decide) (by decide)).1 rfl,
   (C9_tie_break .max [(1, "B"), (1, "A")]).1⟩

theorem C6_idempotence_witness :
    ((∀ xs : List String, xs ≠ [] → pickHead xs ∈ xs) ∧
     (∀ kv ∈ (parse_form_table [⟨"f1", "l1", "m1"⟩, ⟨"f2", "l2", "m1"⟩]
        [⟨"f1", "A"⟩]).forms, kv.2.length ≤ 1)) ∧
    ((∀ f, f ∈ kill_random pickHead [⟨"f1", "l1", "m1"⟩, ⟨"f2", "l2", "m1"⟩]
        [⟨"f1", "A"⟩] ↔
      ∃ l m fs, dictGet? (parse_form_table [⟨"f1", "l1", "m1"⟩, ⟨"f2", "l2", "m1"⟩]
        [⟨"f1", "A"⟩]).forms (l, m) = some fs ∧ f ∈ fs) ∧
     (∀ mode : Mode, ∃ surv,
      kill_minimax_cognates pickHead [⟨"f1", "l1", "m1"⟩, ⟨"f2", "l2", "m1"⟩]
        [⟨"f1", "A"⟩] mode = .ok surv ∧
      ∀ f, f ∈ surv ↔
        ∃ l m fs, dictGet? (parse_form_table [⟨"f1", "l1", "m1"⟩, ⟨"f2", "l2", "m1"⟩]
          [⟨"f1", "A"⟩]).forms (l, m) = some fs ∧ f ∈ fs)) :=
  ⟨⟨pickHead_valid, by decide⟩,
    C6_idempotence pickHead [⟨"f1", "l1", "m1"⟩, ⟨"f2", "l2", "m1"⟩] [⟨"f1", "A"⟩]
      pickHead_valid (by decide)⟩

theorem C10_max_unclassified_witness :
    ("l1" ∈ (parse_form_table [⟨"f0", "l1", "m1"⟩, ⟨"f1", "l1", "m1"⟩]
        [⟨"f1", "A"⟩]).languages ∧
     dictGet? (parse_form_table [⟨"f0", "l1", "m1"⟩, ⟨"f1", "l1", "m1"⟩]
        [⟨"f1", "A"⟩]).forms ("l1", "m1") = some ["f0", "f1"] ∧
     "?" ∈ candClasses (parse_form_table [⟨"f0", "l1", "m1"⟩, ⟨"f1", "l1", "m1"⟩]
        [⟨"f1", "A"⟩]) "m1" "l1" ∧
     (∃ c ∈ candClasses (parse_form_table [⟨"f0", "l1", "m1"⟩, ⟨"f1", "l1", "m1"⟩]
        [⟨"f1", "A"⟩]) "m1" "l1", c ≠ "?") ∧
     "?" ∉ (MState.mk [("l1", CogVal.lst ["?", "A"])] []).attested ∧
     dictGet? (MState.mk [("l1", CogVal.lst ["?", "A"])] []).asgn "l1" =
       some (.lst (candClasses (parse_form_table [⟨"f0", "l1", "m1"⟩,
         ⟨"f1", "l1", "m1"⟩] [⟨"f1", "A"⟩]) "m1" "l1"))) ∧
    (countOf (classCounts (parse_form_table [⟨"f0", "l1", "m1"⟩, ⟨"f1", "l1", "m1"⟩]
        [⟨"f1", "A"⟩]) "m1") "?" = 0 ∧
     (sortOptions .max ((candClasses (parse_form_table [⟨"f0", "l1", "m1"⟩,
        ⟨"f1", "l1", "m1"⟩] [⟨"f1", "A"⟩]) "m1" "l1").map
        (fun c => (countOf (classCounts (parse_form_table [⟨"f0", "l1", "m1"⟩,
          ⟨"f1", "l1", "m1"⟩] [⟨"f1", "A"⟩]) "m1") c, c)))).head? = some (0, "?") ∧
     hardStep (classCounts (parse_form_table [⟨"f0", "l1", "m1"⟩, ⟨"f1", "l1", "m1"⟩]
        [⟨"f1", "A"⟩]) "m1") .max (MState.mk [("l1", CogVal.lst ["?", "A"])] []) "l1" =
       { asgn := dictSet (MState.mk [("l1", CogVal.lst ["?", "A"])] []).asgn "l1"
           (.cls "?"),
         attested := setAdd (MState.mk [("l1", CogVal.lst ["?", "A"])] []).attested "?" } ∧
     chosenForm pickHead (parse_form_table [⟨"f0", "l1", "m1"⟩, ⟨"f1", "l1", "m1"⟩]
        [⟨"f1", "A"⟩]) "m1"
        (dictSet (MState.mk [("l1", CogVal.lst ["?", "A"])] []).asgn "l1" (.cls "?"))
        "l1" = some (pickHead ["f0", "f1"])) :=
  ⟨⟨by decide, by decide, by decide, by decide, by decide, by decide⟩,
    @C10_max_unclassified [⟨"f0", "l1", "m1"⟩, ⟨"f1", "l1", "m1"⟩] [⟨"f1", "A"⟩]
      pickHead "m1" "l1" ["f0", "f1"] (MState.mk [("l1", CogVal.lst ["?", "A"])] [])
      (by decide) (by decide) (by decide) (by decide) (by decide) (by decide)⟩

theorem C5_minimize_monotone_witness :
    ((∀ l ∈ (parse_form_table [⟨"f1", "l1", "m1"⟩, ⟨"f2", "l2", "m1"⟩, ⟨"f3", "l2", "m1"⟩]
        [⟨"f1", "A"⟩, ⟨"f2", "A"⟩, ⟨"f3", "B"⟩]).languages,
      (dictGet? (parse_form_table [⟨"f1", "l1", "m1"⟩, ⟨"f2", "l2", "m1"⟩,
        ⟨"f3", "l2", "m1"⟩] [⟨"f1", "A"⟩, ⟨"f2", "A"⟩, ⟨"f3", "B"⟩]).forms
        (l, "m1")).isSome = true) ∧
     (∀ l ∈ (parse_form_table [⟨"f1", "l1", "m1"⟩, ⟨"f2", "l2", "m1"⟩, ⟨"f3", "l2", "m1"⟩]
        [⟨"f1", "A"⟩, ⟨"f2", "A"⟩, ⟨"f3", "B"⟩]).languages,
      "?" ∉ candClasses (parse_form_table [⟨"f1", "l1", "m1"⟩, ⟨"f2", "l2", "m1"⟩,
        ⟨"f3", "l2", "m1"⟩] [⟨"f1", "A"⟩, ⟨"f2", "A"⟩, ⟨"f3", "B"⟩]) "m1" l) ∧
     (hard_langs (parse_form_table [⟨"f1", "l1", "m1"⟩, ⟨"f2", "l2", "m1"⟩,
        ⟨"f3", "l2", "m1"⟩] [⟨"f1", "A"⟩, ⟨"f2", "A"⟩, ⟨"f3", "B"⟩]) "m1").length ≤ 1) ∧
    (∃ smin smax,
      processMeaning pickHead .min (parse_form_table [⟨"f1", "l1", "m1"⟩,
        ⟨"f2", "l2", "m1"⟩, ⟨"f3", "l2", "m1"⟩]
        [⟨"f1", "A"⟩, ⟨"f2", "A"⟩, ⟨"f3", "B"⟩]) [] "m1" = .ok smin ∧
      processMeaning pickHead .max (parse_form_table [⟨"f1", "l1", "m1"⟩,
        ⟨"f2", "l2", "m1"⟩, ⟨"f3", "l2", "m1"⟩]
        [⟨"f1", "A"⟩, ⟨"f2", "A"⟩, ⟨"f3", "B"⟩]) [] "m1" = .ok smax ∧
      (survivorClasses (parse_form_table [⟨"f1", "l1", "m1"⟩, ⟨"f2", "l2", "m1"⟩,
        ⟨"f3", "l2", "m1"⟩] [⟨"f1", "A"⟩, ⟨"f2", "A"⟩, ⟨"f3", "B"⟩]).cognate_map
        smin).length ≤
      (survivorClasses (parse_form_table [⟨"f1", "l1", "m1"⟩, ⟨"f2", "l2", "m1"⟩,
        ⟨"f3", "l2", "m1"⟩] [⟨"f1", "A"⟩, ⟨"f2", "A"⟩, ⟨"f3", "B"⟩]).cognate_map
        smax).length) :=
  ⟨⟨by decide, by decide, by decide⟩,
    C5_minimize_monotone [⟨"f1", "l1", "m1"⟩, ⟨"f2", "l2", "m1"⟩, ⟨"f3", "l2", "m1"⟩]
      [⟨"f1", "A"⟩, ⟨"f2", "A"⟩, ⟨"f3", "B"⟩] pickHead "m1"
      (by decide) (by decide) (by decide)⟩

end SynKill
